import Mathlib

/-!
# Verification of the cirkit symbolic-to-executable compilation core

This file embeds, as executable Lean definitions, the core data structures and
operations of the cirkit repository that the specification talks about:

* the operator registry (`src/cirkit/symbolic/registry.py`): rule tables,
  `has_rule`, `retrieve_rule`, `register_rule`, `_register_rule`;
* symbolic circuit construction from a region graph
  (`src/cirkit/symbolic/symb_circuit.py`, `SymbCircuit.from_region_graph`);
* the topological ordering utility (`cirkit.utils.algorithms.topological_ordering`,
  not part of the provided sources, modelled from the specification) and its two
  wrappers `layers_topological_ordering` / `pipeline_topological_ordering`;
* the pipeline compiler (`src/cirkit/tensorized/compilers/torch_module.py`):
  `compile_pipeline`, `compile_circuit`, `compile_input_layer`,
  `compile_inner_layer`.

Modelling conventions: Python objects that are compared by identity (layers,
circuits, reparameterization objects, rule functions) are represented as
arena-style entities addressed by a stable natural-number id, so "the same
object" becomes "the same id".  Python dicts are represented as insertion
ordered association lists with dict update semantics.  Python classes are
represented by natural-number class ids together with a boolean subclass
relation.  Fallible code returns `Option` or `Except`.
-/

namespace Cirkit

/-! ## Python dict semantics on insertion-ordered association lists -/

/-- Lookup in a Python dict: the value stored at key `k`, if present. -/
def dictGet {κ α : Type} [BEq κ] (k : κ) (d : List (κ × α)) : Option α :=
  (d.find? (fun p => p.1 == k)).map (fun p => p.2)

/-- Lookup with a default value (used to model `collections.defaultdict` reads
and lookups that are guaranteed to succeed by a well-formedness invariant). -/
def dictGetD {κ α : Type} [BEq κ] (k : κ) (d : List (κ × α)) (v : α) : α :=
  (dictGet k d).getD v

/-- Python dict assignment `d[k] = v`: updates the value in place when the key
exists (keeping its position), otherwise appends the new binding at the end. -/
def dictInsert {κ α : Type} [BEq κ] (k : κ) (v : α) (d : List (κ × α)) : List (κ × α) :=
  if d.any (fun p => p.1 == k) then
    d.map (fun p => if p.1 == k then (k, v) else p)
  else d ++ [(k, v)]

/-- Python dict deletion `del d[k]` (restricted to the effect on the bindings:
all bindings for `k` disappear, the others keep their order). -/
def dictRemove {κ α : Type} [BEq κ] (k : κ) (d : List (κ × α)) : List (κ × α) :=
  d.filter (fun p => !(p.1 == k))

theorem dictGet_insert_self {κ α : Type} [BEq κ] [LawfulBEq κ]
    (k : κ) (v : α) (d : List (κ × α)) : dictGet k (dictInsert k v d) = some v := by
  unfold dictGet dictInsert
  by_cases h : d.any (fun p => p.1 == k)
  · simp only [if_pos h, List.find?_map]
    have hpred : ((fun (p : κ × α) => p.1 == k) ∘ fun p => if p.1 == k then (k, v) else p)
        = fun (p : κ × α) => p.1 == k := by
      funext p
      by_cases hp : (p.1 == k) = true <;> simp [Function.comp, hp]
    rw [hpred]
    rw [List.any_eq_true] at h
    obtain ⟨p₀, hp₀mem, hp₀⟩ := h
    have hex : ∃ x, x ∈ d ∧ (fun (p : κ × α) => p.1 == k) x = true := ⟨p₀, hp₀mem, hp₀⟩
    obtain ⟨q, hq⟩ := Option.isSome_iff_exists.mp (List.find?_isSome.mpr hex)
    have hqk := List.find?_some hq
    rw [hq]
    simp [hqk]
  · simp only [if_neg h, List.find?_append]
    have hnone : List.find? (fun p => p.1 == k) d = none := by
      rw [List.find?_eq_none]
      intro x hx hxk
      exact h (List.any_eq_true.mpr ⟨x, hx, hxk⟩)
    rw [hnone]
    simp

theorem dictGet_insert_ne {κ α : Type} [BEq κ] [LawfulBEq κ]
    (k k' : κ) (v : α) (d : List (κ × α)) (hne : k' ≠ k) :
    dictGet k' (dictInsert k v d) = dictGet k' d := by
  have hkk : (k == k') = false := beq_eq_false_iff_ne.mpr (fun hh => hne hh.symm)
  unfold dictGet dictInsert
  by_cases h : d.any (fun p => p.1 == k)
  · simp only [if_pos h, List.find?_map]
    have hpred : ((fun (p : κ × α) => p.1 == k') ∘ fun p => if p.1 == k then (k, v) else p)
        = fun (p : κ × α) => p.1 == k' := by
      funext p
      by_cases hp : (p.1 == k) = true
      · have hpk : p.1 = k := eq_of_beq hp
        have : (p.1 == k') = false := by rw [hpk]; exact hkk
        simp [Function.comp, hp, hkk, this]
      · simp [Function.comp, hp]
    rw [hpred]
    cases hq : List.find? (fun (p : κ × α) => p.1 == k') d with
    | none => simp
    | some q =>
      have hqk' := List.find?_some hq
      have hqk : (q.1 == k) = false := by
        refine beq_eq_false_iff_ne.mpr (fun hh => ?_)
        exact hne (by rw [← eq_of_beq hqk', hh])
      simp [hqk]
  · simp only [if_neg h, List.find?_append]
    have : List.find? (fun (p : κ × α) => p.1 == k') [(k, v)] = none := by
      simp [List.find?, hkk]
    rw [this]
    simp

theorem dictGet_remove_self {κ α : Type} [BEq κ] [LawfulBEq κ]
    (k : κ) (d : List (κ × α)) : dictGet k (dictRemove k d) = none := by
  unfold dictGet dictRemove
  rw [Option.map_eq_none', List.find?_eq_none]
  intro x hx hxk
  rw [List.mem_filter] at hx
  rw [hxk] at hx
  simp at hx

/-! ## Operator registry (`src/cirkit/symbolic/registry.py`)

Python layer classes are represented by `Nat` class ids and `issubclass` by a
boolean relation `sub`.  Operators (`AbstractLayerOperator` values) are `Nat`
ids.  Rule functions are compared by object identity in Python, so they are
represented syntactically: `RuleFn.base i` is an original rewrite function and
`RuleFn.swap f` is the wrapper `lambda rhs, lhs: f(lhs, rhs)` synthesized by
`_register_rule` for commutative operators (a fresh object, distinct from `f`).
-/

/-- A rule function object: either an original function (by id) or the argument
swapping lambda created for the mirrored signature of a commutative rule. -/
inductive RuleFn where
  | base (i : Nat)
  | swap (f : RuleFn)
deriving DecidableEq, Repr

/-- Calling a binary rule function on positional arguments `(a, b)`, given an
interpretation `env` of the original functions.  `RuleFn.swap f` is
`lambda rhs, lhs: f(lhs, rhs)`, so calling it on `(a, b)` binds `rhs := a`,
`lhs := b` and computes `f(b, a)`. -/
def RuleFn.applyB (env : Nat → Nat → Nat → Nat) : RuleFn → Nat → Nat → Nat
  | .base i, a, b => env i a b
  | .swap f, a, b => f.applyB env b a

/-- The rule table of one operator: signature tuple to rule function, as an
insertion-ordered Python dict (`LayerOperatorSpecs`). -/
abbrev LayerOperatorSpecs := List (List Nat × RuleFn)

/-- The whole `_rules` table of an `OperatorRegistry`: operator id to specs. -/
abbrev Registry := List (Nat × LayerOperatorSpecs)

/-- `len(signature) == len(s) and all(issubclass(x[0], x[1]) for x in zip(signature, s))`:
the subtype-matching test used by both `has_rule` and `retrieve_rule`. -/
def sigMatches (sub : Nat → Nat → Bool) (sig s : List Nat) : Bool :=
  sig.length == s.length && (List.zip sig s).all fun p => sub p.1 p.2

/-- `OperatorRegistry.has_rule`: `True` when the exact signature is registered
for `op`, or when some registered signature of the same length is matched by
subtyping; `False` when the operator has no entry. -/
def has_rule (sub : Nat → Nat → Bool) (reg : Registry) (op : Nat) (sig : List Nat) : Bool :=
  match dictGet op reg with
  | none => false
  | some op_rules =>
      (op_rules.any fun p => p.1 == sig) || op_rules.any fun p => sigMatches sub sig p.1

/-- The effect of `OperatorRegistry._register_rule` on the specs dict of one
operator: store `func` under `signature`; for a binary signature of a
commutative operator with two distinct classes, additionally store the
argument-swapping lambda under the mirrored signature. -/
def registerSpecs (f : RuleFn) (sig : List Nat) (commutative : Bool)
    (specs : LayerOperatorSpecs) : LayerOperatorSpecs :=
  match sig with
  | [lhs_cls, rhs_cls] =>
      if commutative && !(lhs_cls == rhs_cls) then
        dictInsert [rhs_cls, lhs_cls] (.swap f) (dictInsert [lhs_cls, rhs_cls] f specs)
      else dictInsert [lhs_cls, rhs_cls] f specs
  | _ => dictInsert sig f specs

/-- `OperatorRegistry._register_rule`: `self._rules[op][signature] = func` (plus
the commutative mirror).  Reading `self._rules[op]` raises `KeyError` when `op`
has no entry in the table, modelled by `none`. -/
def registerRuleAux (reg : Registry) (op : Nat) (f : RuleFn) (sig : List Nat)
    (commutative : Bool) : Option Registry :=
  match dictGet op reg with
  | none => none
  | some specs => some (dictInsert op (registerSpecs f sig commutative specs) reg)

/-- Errors raised by `OperatorRegistry.retrieve_rule`. -/
inductive RetrieveErr where
  | opNotFound (op : Nat)
  | sigNotFound (sig : List Nat)
deriving DecidableEq, Repr

/-- `OperatorRegistry.retrieve_rule`: exact signature match wins; otherwise the
first registered signature (in insertion order) matched by subtyping is used
and its function is cached back under the exact queried signature via
`_register_rule`, with `commutative = op in DEFAULT_COMMUTATIVE_OPERATORS`
(the list `commOps`).  The returned pair is the rule function and the registry
state after the call (the Python method mutates `self`). -/
def retrieve_rule (sub : Nat → Nat → Bool) (commOps : List Nat) (reg : Registry)
    (op : Nat) (sig : List Nat) : Except RetrieveErr (RuleFn × Registry) :=
  match dictGet op reg with
  | none => .error (.opNotFound op)
  | some op_rules =>
      match op_rules.find? (fun p => p.1 == sig) with
      | some p => .ok (p.2, reg)
      | none =>
          match op_rules.find? (fun p => sigMatches sub sig p.1) with
          | some sf =>
              .ok (sf.2, (registerRuleAux reg op sf.2 sig (commOps.contains op)).getD reg)
          | none => .error (.sigNotFound sig)

/-- Outcome of `OperatorRegistry.register_rule` before reaching
`_register_rule`: either the derived dispatch signature, or a `ValueError`. -/
inductive RegOutcome where
  | ok (sig : List Nat)
  | valueError (msg : String)
deriving DecidableEq, Repr

/-- A Python sequence value that is either a tuple or a list; `==` between a
tuple and a list is always `False` in Python, whatever the elements are. -/
inductive PySeq where
  | tup (xs : List Nat)
  | lst (xs : List Nat)
deriving DecidableEq, Repr

/-- Python `==` on sequence values: element comparison within the same kind,
`False` across tuple/list kinds. -/
def pySeqEq : PySeq → PySeq → Bool
  | .tup a, .tup b => a == b
  | .lst a, .lst b => a == b
  | _, _ => false

/-- `OperatorRegistry.register_rule`, up to (but not including) the final call
to `_register_rule`.  The input is the function object's `__annotations__`
dict (name to class id, insertion ordered, with the `"return"` entry last when
present); `layerCls` and `circuitBlockCls` are the class ids of `Layer` and
`CircuitBlock`.  The result is the function object's annotations dict after the
call (the code does `del args["return"]` on the live `__annotations__` mapping)
together with the outcome.  Faithfully modelled details: `arg_layer_types_locs`
is a tuple (from `zip`) while `list(range(...))` is a list, and Python compares
a tuple and a list as unequal; unpacking `list(zip(*[]))` into two variables
raises a `ValueError`. -/
def register_rule_run (sub : Nat → Nat → Bool) (layerCls circuitBlockCls : Nat)
    (anns : List (String × Nat)) : List (String × Nat) × RegOutcome :=
  match dictGet "return" anns with
  | none => (anns, .valueError "The function is not an operator over symbolic layers")
  | some ret =>
      if !(sub ret circuitBlockCls) then
        (anns, .valueError "The function is not an operator over symbolic layers")
      else
        let args := dictRemove "return" anns
        let arg_types := args.map fun p => p.2
        let arg_layer_types := arg_types.enum.filter fun p => sub p.2 layerCls
        match arg_layer_types with
        | [] => (args, .valueError "not enough values to unpack")
        | _ =>
            let locs := arg_layer_types.map fun p => p.1
            let sig := arg_layer_types.map fun p => p.2
            if pySeqEq (.tup locs) (.lst (List.range locs.length)) then (args, .ok sig)
            else
              (args, .valueError
                "The layer operands should be the first arguments of the operator rule function")

theorem pySeqEq_tup_lst (a b : List Nat) : pySeqEq (.tup a) (.lst b) = false := rfl

/-- C5: the claim states that `register_rule` succeeds exactly when the rewrite
function has a `CircuitBlock`-compatible return annotation and its layer-typed
parameters are the leading parameters.  The code can in fact never succeed:
`arg_layer_types_locs` is a tuple (produced by `zip`) and is compared with
`list(range(...))`, a list, and in Python a tuple never equals a list, so the
"operands must be first" `ValueError` is raised for every function that passes
the return-annotation check and has at least one layer-typed parameter (and
with no layer-typed parameter the tuple unpacking itself raises `ValueError`).
First conjunct: no annotations dict whatsoever makes `register_rule` succeed.
Second conjunct: a perfectly valid rule (one leading `Layer`-typed parameter,
class id 10, and a `CircuitBlock` return annotation, class id 20, with
`Layer = 0` and `CircuitBlock = 1`) is rejected with the
"operands should be the first arguments" error, contradicting the claim. -/
theorem c5_register_rule_never_succeeds :
    (∀ (sub : Nat → Nat → Bool) (layerCls circuitBlockCls : Nat)
      (anns : List (String × Nat)),
      ∃ msg, (register_rule_run sub layerCls circuitBlockCls anns).2 = .valueError msg)
    ∧ (register_rule_run
        (fun a b => (a == 10 && b == 0) || (a == 20 && b == 1) || a == b) 0 1
        [("lhs", 10), ("return", 20)]).2 =
      .valueError
        "The layer operands should be the first arguments of the operator rule function" := by
  constructor
  · intro sub layerCls circuitBlockCls anns
    unfold register_rule_run
    split
    · exact ⟨_, rfl⟩
    · split
      · exact ⟨_, rfl⟩
      · dsimp only
        split
        · exact ⟨_, rfl⟩
        · rw [pySeqEq_tup_lst]
          simp only [Bool.false_eq_true, if_false]
          exact ⟨_, rfl⟩
  · rfl

/-- C10: whenever the function object's `__annotations__` has a `"return"`
entry whose class is a `CircuitBlock` subtype, `register_rule` executes
`del args["return"]` on the live annotations mapping before the remaining
validation, so: (1) after the call the annotations dict has lost its
`"return"` entry (whatever the outcome of the rest of the validation was), and
(2) calling `register_rule` again on the same function object fails the
`"return" in arg_names` check and raises the "not a valid operator rule"
`ValueError`. -/
theorem c10_register_rule_deletes_return_annotation
    (sub : Nat → Nat → Bool) (layerCls circuitBlockCls : Nat)
    (anns : List (String × Nat)) (r : Nat)
    (hret : dictGet "return" anns = some r)
    (hsub : sub r circuitBlockCls = true) :
    (register_rule_run sub layerCls circuitBlockCls anns).1 = dictRemove "return" anns
    ∧ dictGet "return" (register_rule_run sub layerCls circuitBlockCls anns).1 = none
    ∧ (register_rule_run sub layerCls circuitBlockCls
        (register_rule_run sub layerCls circuitBlockCls anns).1).2 =
      .valueError "The function is not an operator over symbolic layers" := by
  have h1 : (register_rule_run sub layerCls circuitBlockCls anns).1
      = dictRemove "return" anns := by
    unfold register_rule_run
    rw [hret]
    simp only [hsub, Bool.not_true, Bool.false_eq_true, if_false]
    split
    · rfl
    · rw [pySeqEq_tup_lst]
      simp only [Bool.false_eq_true, if_false]
  refine ⟨h1, ?_, ?_⟩
  · rw [h1]
    exact dictGet_remove_self _ _
  · rw [h1]
    unfold register_rule_run
    rw [dictGet_remove_self]

/-- Witness for C10 at a concrete function object: annotations
`{lhs: 10, return: 20}` with `CircuitBlock = 1` and `sub 20 1 = true`. -/
theorem c10_register_rule_deletes_return_annotation_witness :
    (register_rule_run (fun a b => (a == 20 && b == 1) || a == b) 0 1
      [("lhs", 10), ("return", 20)]).1 = [("lhs", 10)]
    ∧ (register_rule_run (fun a b => (a == 20 && b == 1) || a == b) 0 1
        (register_rule_run (fun a b => (a == 20 && b == 1) || a == b) 0 1
          [("lhs", 10), ("return", 20)]).1).2 =
      .valueError "The function is not an operator over symbolic layers" := by
  have h := c10_register_rule_deletes_return_annotation
    (fun a b => (a == 20 && b == 1) || a == b) 0 1
    [("lhs", 10), ("return", 20)] 20 (by decide) (by decide)
  exact ⟨h.1.trans (by decide), h.2.2⟩

/-- C6: `_register_rule` with `commutative=True` on a binary signature `(A, B)`
with `A ≠ B` stores `func` under `(A, B)` and the argument-swapping lambda
`lambda rhs, lhs: func(lhs, rhs)` under the mirrored signature `(B, A)`; the
mirrored rule called on `(b, a)` computes `func(a, b)`.  When `A = B` no
mirrored entry is synthesized, and a signature of arity other than 2 is stored
only under the declared signature.  (`op` must already have an entry in the
rule table; reading `self._rules[op]` for the operators actually used is set up
by the surrounding code.) -/
theorem c6_commutative_mirroring
    (reg : Registry) (op : Nat) (f : RuleFn) (a b : Nat)
    (specs : LayerOperatorSpecs) (env : Nat → Nat → Nat → Nat)
    (hop : dictGet op reg = some specs) :
    (a ≠ b →
      registerRuleAux reg op f [a, b] true =
        some (dictInsert op
          (dictInsert [b, a] (.swap f) (dictInsert [a, b] f specs)) reg)
      ∧ dictGet [b, a] (dictInsert [b, a] (.swap f) (dictInsert [a, b] f specs))
          = some (.swap f)
      ∧ dictGet [a, b] (dictInsert [b, a] (.swap f) (dictInsert [a, b] f specs))
          = some f
      ∧ ∀ va vb : Nat, (RuleFn.swap f).applyB env vb va = f.applyB env va vb)
    ∧ (a = b →
      registerRuleAux reg op f [a, b] true =
        some (dictInsert op (dictInsert [a, b] f specs) reg))
    ∧ (∀ (sig : List Nat) (c : Bool), sig.length ≠ 2 →
      registerRuleAux reg op f sig c =
        some (dictInsert op (dictInsert sig f specs) reg)) := by
  refine ⟨?_, ?_, ?_⟩
  · intro hne
    have hab : (a == b) = false := beq_eq_false_iff_ne.mpr hne
    refine ⟨?_, dictGet_insert_self _ _ _, ?_, fun va vb => rfl⟩
    · unfold registerRuleAux registerSpecs
      rw [hop]
      simp [hab]
    · rw [dictGet_insert_ne]
      · exact dictGet_insert_self _ _ _
      · intro hh
        exact hne (by injection hh with h1 h2)
  · intro hab
    unfold registerRuleAux registerSpecs
    rw [hop]
    subst hab
    simp
  · intro sig c hlen
    unfold registerRuleAux registerSpecs
    rw [hop]
    match sig, hlen with
    | [], _ => rfl
    | [x], _ => rfl
    | [x, y], h => exact absurd rfl h
    | x :: y :: z :: t, _ => rfl

/-- Witness for C6 at a concrete registry: operator 5 present with empty specs,
rule `base 0` on signature `(1, 2)`. -/
theorem c6_commutative_mirroring_witness :
    registerRuleAux [(5, [])] 5 (RuleFn.base 0) [1, 2] true =
      some [(5, [([1, 2], RuleFn.base 0), ([2, 1], RuleFn.swap (RuleFn.base 0))])]
    ∧ registerRuleAux [(5, [])] 5 (RuleFn.base 0) [1, 1] true =
      some [(5, [([1, 1], RuleFn.base 0)])]
    ∧ (RuleFn.swap (RuleFn.base 0)).applyB (fun i x y => i + 2 * x + 3 * y) 7 4 =
      (RuleFn.base 0).applyB (fun i x y => i + 2 * x + 3 * y) 4 7 := by
  have h := c6_commutative_mirroring [(5, [])] 5 (RuleFn.base 0) 1 2 []
    (fun i x y => i + 2 * x + 3 * y) (by decide)
  have h2 := c6_commutative_mirroring [(5, [])] 5 (RuleFn.base 0) 1 1 []
    (fun i x y => i + 2 * x + 3 * y) (by decide)
  refine ⟨((h.1 (by decide)).1).trans (by decide), (h2.2.1 rfl).trans (by decide), ?_⟩
  exact (h.1 (by decide)).2.2.2 4 7

theorem mem_dictInsert {κ α : Type} [BEq κ] [LawfulBEq κ]
    {k : κ} {v : α} {d : List (κ × α)} {q : κ × α}
    (hq : q ∈ dictInsert k v d) : q = (k, v) ∨ q ∈ d := by
  unfold dictInsert at hq
  by_cases h : d.any (fun p => p.1 == k)
  · rw [if_pos h] at hq
    rw [List.mem_map] at hq
    obtain ⟨p, hp, hpq⟩ := hq
    by_cases hpk : (p.1 == k) = true
    · left; rw [← hpq]; simp [hpk]
    · right; rw [← hpq]; simpa [hpk] using hp
  · rw [if_neg h] at hq
    rw [List.mem_append] at hq
    rcases hq with hq | hq
    · right; exact hq
    · left; simpa using hq

theorem self_mem_dictInsert {κ α : Type} [BEq κ] [LawfulBEq κ]
    (k : κ) (v : α) (d : List (κ × α)) : (k, v) ∈ dictInsert k v d := by
  unfold dictInsert
  by_cases h : d.any (fun p => p.1 == k)
  · rw [if_pos h]
    rw [List.any_eq_true] at h
    obtain ⟨p, hp, hpk⟩ := h
    rw [List.mem_map]
    exact ⟨p, hp, by simp [hpk]⟩
  · rw [if_neg h]
    simp

theorem mem_dictInsert_of_mem {κ α : Type} [BEq κ] [LawfulBEq κ]
    {k : κ} (v : α) {d : List (κ × α)} {q : κ × α}
    (hq : q ∈ d) (hne : (q.1 == k) = false) : q ∈ dictInsert k v d := by
  unfold dictInsert
  by_cases h : d.any (fun p => p.1 == k)
  · rw [if_pos h]
    rw [List.mem_map]
    exact ⟨q, hq, by simp [hne]⟩
  · rw [if_neg h]
    exact List.mem_append_left _ hq

/-- The keys of `dictInsert k v d` are the keys of `d` together with `k`:
a predicate on keys holds somewhere in the updated dict iff it holds somewhere
in `d` or it holds at `k`. -/
theorem any_key_dictInsert {κ α : Type} [BEq κ] [LawfulBEq κ]
    (P : κ → Bool) (k : κ) (v : α) (d : List (κ × α)) :
    ((dictInsert k v d).any (fun p => P p.1) = true)
      ↔ (d.any (fun p => P p.1) = true ∨ P k = true) := by
  constructor
  · intro h
    rw [List.any_eq_true] at h
    obtain ⟨q, hq, hPq⟩ := h
    rcases mem_dictInsert hq with hq' | hq'
    · right; rw [hq'] at hPq; exact hPq
    · left; exact List.any_eq_true.mpr ⟨q, hq', hPq⟩
  · intro h
    rw [List.any_eq_true]
    rcases h with h | h
    · rw [List.any_eq_true] at h
      obtain ⟨q, hq, hPq⟩ := h
      by_cases hqk : (q.1 == k) = true
      · exact ⟨(k, v), self_mem_dictInsert k v d, by rw [← eq_of_beq hqk]; exact hPq⟩
      · exact ⟨q, mem_dictInsert_of_mem v hq (by simpa using hqk), hPq⟩
    · exact ⟨(k, v), self_mem_dictInsert k v d, h⟩

theorem sigMatches_refl {sub : Nat → Nat → Bool} (hrefl : ∀ a, sub a a = true)
    (s : List Nat) : sigMatches sub s s = true := by
  unfold sigMatches
  rw [Bool.and_eq_true]
  refine ⟨by simp, ?_⟩
  induction s with
  | nil => rfl
  | cons a t ih =>
    simp only [List.zip_cons_cons, List.all_cons, Bool.and_eq_true]
    exact ⟨hrefl a, ih⟩

theorem zip_all_sub_trans {sub : Nat → Nat → Bool}
    (htrans : ∀ a b c, sub a b = true → sub b c = true → sub a c = true) :
    ∀ (a b c : List Nat), a.length = b.length → b.length = c.length →
      ((a.zip b).all fun p => sub p.1 p.2) = true →
      ((b.zip c).all fun p => sub p.1 p.2) = true →
      ((a.zip c).all fun p => sub p.1 p.2) = true := by
  intro a
  induction a with
  | nil => intro b c _ _ _ _; simp
  | cons x a' ih =>
    intro b c hl1 hl2 h1 h2
    cases b with
    | nil => simp at hl1
    | cons y b' =>
      cases c with
      | nil => rw [← hl1] at hl2; simp at hl2
      | cons z c' =>
        simp only [List.zip_cons_cons, List.all_cons, Bool.and_eq_true] at h1 h2 ⊢
        exact ⟨htrans x y z h1.1 h2.1,
          ih b' c' (by simpa using hl1) (by simpa using hl2) h1.2 h2.2⟩

theorem sigMatches_trans {sub : Nat → Nat → Bool}
    (htrans : ∀ a b c, sub a b = true → sub b c = true → sub a c = true)
    {a b c : List Nat} (hab : sigMatches sub a b = true)
    (hbc : sigMatches sub b c = true) : sigMatches sub a c = true := by
  unfold sigMatches at *
  rw [Bool.and_eq_true] at hab hbc
  obtain ⟨hablen, hab'⟩ := hab
  obtain ⟨hbclen, hbc'⟩ := hbc
  have hablen' : a.length = b.length := by simpa using hablen
  have hbclen' : b.length = c.length := by simpa using hbclen
  rw [Bool.and_eq_true]
  exact ⟨by simp [hablen', hbclen'],
    zip_all_sub_trans htrans a b c hablen' hbclen' hab' hbc'⟩

theorem registerRuleAux_present {reg : Registry} {op : Nat} {specs : LayerOperatorSpecs}
    (h : dictGet op reg = some specs) (f : RuleFn) (sig : List Nat) (c : Bool) :
    registerRuleAux reg op f sig c
      = some (dictInsert op (registerSpecs f sig c specs) reg) := by
  unfold registerRuleAux
  rw [h]

theorem dictGet_registerSpecs_self (f : RuleFn) (sig : List Nat) (comm : Bool)
    (specs : LayerOperatorSpecs) :
    dictGet sig (registerSpecs f sig comm specs) = some f := by
  obtain _ | ⟨x, _ | ⟨y, _ | ⟨z, t⟩⟩⟩ := sig
  · exact dictGet_insert_self _ _ _
  · exact dictGet_insert_self _ _ _
  · simp only [registerSpecs]
    by_cases hc : (comm && !(x == y)) = true
    · rw [if_pos hc]
      rw [Bool.and_eq_true, Bool.not_eq_true'] at hc
      have hne : [x, y] ≠ [y, x] := by
        intro hxy
        injection hxy with h1 _
        rw [h1] at hc
        simp at hc
      rw [dictGet_insert_ne _ _ _ _ hne]
      exact dictGet_insert_self _ _ _
    · rw [if_neg hc]
      exact dictGet_insert_self _ _ _
  · exact dictGet_insert_self _ _ _

theorem find_key_of_dictGet {κ α : Type} [BEq κ] [LawfulBEq κ]
    {k : κ} {d : List (κ × α)} {v : α} (h : dictGet k d = some v) :
    d.find? (fun p => p.1 == k) = some (k, v) := by
  unfold dictGet at h
  cases hf : d.find? (fun p => p.1 == k) with
  | none => rw [hf] at h; simp at h
  | some q =>
    rw [hf] at h
    obtain ⟨q1, q2⟩ := q
    have hk := List.find?_some hf
    simp only [Option.map_some', Option.some.injEq] at h
    have : q1 = k := eq_of_beq hk
    rw [this, h]

/-- The keys present in `registerSpecs f sig comm specs`: the old keys, the
signature `sig` itself, and (for a commutative binary signature with distinct
classes) the mirrored signature. -/
theorem any_key_registerSpecs (P : List Nat → Bool) (f : RuleFn) (sig : List Nat)
    (comm : Bool) (specs : LayerOperatorSpecs) :
    ((registerSpecs f sig comm specs).any (fun p => P p.1) = true)
      ↔ (specs.any (fun p => P p.1) = true ∨ P sig = true ∨
          ∃ x y, sig = [x, y] ∧ comm = true ∧ (x == y) = false ∧ P [y, x] = true) := by
  obtain _ | ⟨x, _ | ⟨y, _ | ⟨z, t⟩⟩⟩ := sig
  · unfold registerSpecs
    rw [any_key_dictInsert]
    constructor
    · rintro (h | h)
      · exact Or.inl h
      · exact Or.inr (Or.inl h)
    · rintro (h | h | ⟨x', y', hxy, _, _, _⟩)
      · exact Or.inl h
      · exact Or.inr h
      · exact absurd hxy (by simp)
  · unfold registerSpecs
    rw [any_key_dictInsert]
    constructor
    · rintro (h | h)
      · exact Or.inl h
      · exact Or.inr (Or.inl h)
    · rintro (h | h | ⟨x', y', hxy, _, _, _⟩)
      · exact Or.inl h
      · exact Or.inr h
      · exact absurd hxy (by simp)
  · simp only [registerSpecs]
    by_cases hc : (comm && !(x == y)) = true
    · rw [if_pos hc]
      rw [any_key_dictInsert, any_key_dictInsert]
      rw [Bool.and_eq_true, Bool.not_eq_true'] at hc
      constructor
      · rintro ((h | h) | h)
        · exact Or.inl h
        · exact Or.inr (Or.inl h)
        · exact Or.inr (Or.inr ⟨x, y, rfl, hc.1, hc.2, h⟩)
      · rintro (h | h | ⟨x', y', hxy, _, _, hP⟩)
        · exact Or.inl (Or.inl h)
        · exact Or.inl (Or.inr h)
        · injection hxy with h1 h2
          injection h2 with h2 _
          subst h1; subst h2
          exact Or.inr hP
    · rw [if_neg hc]
      rw [any_key_dictInsert]
      constructor
      · rintro (h | h)
        · exact Or.inl h
        · exact Or.inr (Or.inl h)
      · rintro (h | h | ⟨x', y', hxy, hcm, hne, _⟩)
        · exact Or.inl h
        · exact Or.inr h
        · exfalso
          injection hxy with h1 h2
          injection h2 with h2 _
          subst h1; subst h2
          exact hc (by rw [hcm, hne]; rfl)
  · unfold registerSpecs
    rw [any_key_dictInsert]
    constructor
    · rintro (h | h)
      · exact Or.inl h
      · exact Or.inr (Or.inl h)
    · rintro (h | h | ⟨x', y', hxy, _, _, _⟩)
      · exact Or.inl h
      · exact Or.inr h
      · exact absurd hxy (by simp)

/-- Dissection of a successful `retrieve_rule` call: either the exact signature
was registered (and the registry is unchanged), or the first subtype match was
cached under the queried signature. -/
theorem retrieve_rule_cases {sub : Nat → Nat → Bool} {commOps : List Nat}
    {reg : Registry} {op : Nat} {sig : List Nat} {f : RuleFn} {reg' : Registry}
    (h : retrieve_rule sub commOps reg op sig = .ok (f, reg')) :
    ∃ specs, dictGet op reg = some specs ∧
      ((specs.find? (fun p => p.1 == sig) = some (sig, f) ∧ reg' = reg)
       ∨ (specs.find? (fun p => p.1 == sig) = none ∧
          ∃ s, specs.find? (fun p => sigMatches sub sig p.1) = some (s, f) ∧
            reg' = dictInsert op
              (registerSpecs f sig (commOps.contains op) specs) reg)) := by
  unfold retrieve_rule at h
  cases hspecs : dictGet op reg with
  | none => rw [hspecs] at h; exact absurd h (by simp)
  | some specs =>
    rw [hspecs] at h
    dsimp only at h
    cases hexact : specs.find? (fun p => p.1 == sig) with
    | some p =>
      rw [hexact] at h
      simp only [Except.ok.injEq, Prod.mk.injEq] at h
      obtain ⟨p1, p2⟩ := p
      have h1 : p1 = sig := eq_of_beq (by simpa using List.find?_some hexact)
      obtain ⟨hf, hreg⟩ := h
      subst h1
      subst hf
      exact ⟨specs, rfl, Or.inl ⟨hexact, hreg.symm⟩⟩
    | none =>
      rw [hexact] at h
      cases hmatch : specs.find? (fun p => sigMatches sub sig p.1) with
      | none => rw [hmatch] at h; exact absurd h (by simp)
      | some sf =>
        rw [hmatch] at h
        dsimp only at h
        rw [registerRuleAux_present hspecs] at h
        simp only [Option.getD_some, Except.ok.injEq, Prod.mk.injEq] at h
        obtain ⟨s, fv⟩ := sf
        obtain ⟨hf, hreg⟩ := h
        subst hf
        exact ⟨specs, rfl, Or.inr ⟨hexact, s, by rw [hmatch], hreg.symm⟩⟩

/-- C4 (amended): for every registry state, `retrieve_rule` returns the
exactly-matching rule (leaving the registry unchanged) when the queried
signature is registered; otherwise it returns the first registered rule, in
registration order, whose declared signature the queried one matches by
subtyping, caching it under the exact queried signature; it raises
`OperatorNotFound` when `op` has no entry at all and `OperatorSignatureNotFound`
when nothing matches; a second `retrieve_rule` of the same signature returns
the same function and the same registry; `has_rule` answers never flip from
true to false; and — the amendment forced by the counterexample — a
`retrieve_rule` call can change a `has_rule` answer from false to true, but
only for the same operator and only for signatures that match (by subtyping)
the commutative mirror of the queried signature, which `retrieve_rule` also
caches whenever the operator is one of the default commutative operators.
(`sub` models `issubclass` and is therefore reflexive and transitive.) -/
theorem c4_retrieve_rule_caching
    (sub : Nat → Nat → Bool)
    (hrefl : ∀ a, sub a a = true)
    (htrans : ∀ a b c, sub a b = true → sub b c = true → sub a c = true)
    (commOps : List Nat) (reg : Registry) (op : Nat) (sig : List Nat) :
    (dictGet op reg = none →
      retrieve_rule sub commOps reg op sig = .error (.opNotFound op))
    ∧ (∀ specs p, dictGet op reg = some specs →
        specs.find? (fun q => q.1 == sig) = some p →
        retrieve_rule sub commOps reg op sig = .ok (p.2, reg))
    ∧ (∀ specs sf, dictGet op reg = some specs →
        specs.find? (fun q => q.1 == sig) = none →
        specs.find? (fun q => sigMatches sub sig q.1) = some sf →
        retrieve_rule sub commOps reg op sig =
          .ok (sf.2, dictInsert op (registerSpecs sf.2 sig (commOps.contains op) specs) reg)
        ∧ dictGet sig (registerSpecs sf.2 sig (commOps.contains op) specs) = some sf.2)
    ∧ (∀ specs, dictGet op reg = some specs →
        specs.find? (fun q => q.1 == sig) = none →
        specs.find? (fun q => sigMatches sub sig q.1) = none →
        retrieve_rule sub commOps reg op sig = .error (.sigNotFound sig))
    ∧ (∀ f reg', retrieve_rule sub commOps reg op sig = .ok (f, reg') →
        retrieve_rule sub commOps reg' op sig = .ok (f, reg'))
    ∧ (∀ f reg' op2 sig2, retrieve_rule sub commOps reg op sig = .ok (f, reg') →
        has_rule sub reg op2 sig2 = true → has_rule sub reg' op2 sig2 = true)
    ∧ (∀ f reg' op2 sig2, retrieve_rule sub commOps reg op sig = .ok (f, reg') →
        has_rule sub reg' op2 sig2 = true →
        has_rule sub reg op2 sig2 = true
        ∨ (op2 = op ∧ commOps.contains op = true ∧
            ∃ x y, sig = [x, y] ∧ x ≠ y ∧ sigMatches sub sig2 [y, x] = true)) := by
  refine ⟨?_, ?_, ?_, ?_, ?_, ?_, ?_⟩
  · intro hnone
    unfold retrieve_rule
    rw [hnone]
  · intro specs p hspecs hfind
    unfold retrieve_rule
    rw [hspecs]
    dsimp only
    rw [hfind]
  · intro specs sf hspecs hexact hmatch
    constructor
    · unfold retrieve_rule
      rw [hspecs]
      dsimp only
      rw [hexact, hmatch]
      dsimp only
      rw [registerRuleAux_present hspecs]
      rfl
    · exact dictGet_registerSpecs_self _ _ _ _
  · intro specs hspecs hexact hmatch
    unfold retrieve_rule
    rw [hspecs]
    dsimp only
    rw [hexact, hmatch]
  · intro f reg' h
    obtain ⟨specs, hspecs, hcases⟩ := retrieve_rule_cases h
    rcases hcases with ⟨hfind, rfl⟩ | ⟨hexact, s, hmatch, rfl⟩
    · unfold retrieve_rule
      rw [hspecs]
      dsimp only
      rw [hfind]
    · unfold retrieve_rule
      rw [dictGet_insert_self]
      dsimp only
      rw [find_key_of_dictGet (dictGet_registerSpecs_self f sig (commOps.contains op) specs)]
  · intro f reg' op2 sig2 h hold
    obtain ⟨specs, hspecs, hcases⟩ := retrieve_rule_cases h
    rcases hcases with ⟨hfind, rfl⟩ | ⟨hexact, s, hmatch, rfl⟩
    · exact hold
    · unfold has_rule at hold ⊢
      by_cases hop2 : op2 = op
      · subst hop2
        rw [hspecs] at hold
        rw [dictGet_insert_self]
        rw [Bool.or_eq_true] at hold ⊢
        rcases hold with hold | hold
        · exact Or.inl ((any_key_registerSpecs (fun k => k == sig2) _ _ _ _).mpr (Or.inl hold))
        · exact Or.inr
            ((any_key_registerSpecs (fun k => sigMatches sub sig2 k) _ _ _ _).mpr (Or.inl hold))
      · rw [dictGet_insert_ne _ _ _ _ hop2]
        exact hold
  · intro f reg' op2 sig2 h hnew
    obtain ⟨specs, hspecs, hcases⟩ := retrieve_rule_cases h
    rcases hcases with ⟨hfind, rfl⟩ | ⟨hexact, s, hmatch, rfl⟩
    · exact Or.inl hnew
    · by_cases hop2 : op2 = op
      · subst hop2
        have hsfmem : (s, f) ∈ specs := List.mem_of_find?_eq_some hmatch
        have hsfmatch : sigMatches sub sig s = true := by
          simpa using List.find?_some hmatch
        unfold has_rule at hnew ⊢
        rw [dictGet_insert_self] at hnew
        rw [hspecs]
        rw [Bool.or_eq_true] at hnew ⊢
        rcases hnew with hnew | hnew
        · rcases (any_key_registerSpecs (fun k => k == sig2) _ _ _ _).mp hnew with
            hcase | hcase | ⟨x, y, hsigxy, hcm, hxy, hP⟩
          · exact Or.inl (Or.inl hcase)
          · have : sig = sig2 := eq_of_beq hcase
            subst this
            exact Or.inl (Or.inr (List.any_eq_true.mpr ⟨(s, f), hsfmem, hsfmatch⟩))
          · have hsig2 : [y, x] = sig2 := eq_of_beq hP
            refine Or.inr ⟨rfl, hcm, x, y, hsigxy, by simpa using hxy, ?_⟩
            rw [← hsig2]
            exact sigMatches_refl hrefl [y, x]
        · rcases (any_key_registerSpecs (fun k => sigMatches sub sig2 k) _ _ _ _).mp hnew with
            hcase | hcase | ⟨x, y, hsigxy, hcm, hxy, hP⟩
          · exact Or.inl (Or.inr hcase)
          · have : sigMatches sub sig2 s = true := sigMatches_trans htrans hcase hsfmatch
            exact Or.inl (Or.inr (List.any_eq_true.mpr ⟨(s, f), hsfmem, this⟩))
          · exact Or.inr ⟨rfl, hcm, x, y, hsigxy, by simpa using hxy, hP⟩
      · unfold has_rule at hnew ⊢
        rw [dictGet_insert_ne _ _ _ _ hop2] at hnew
        exact Or.inl hnew

/-- C4 counterexample: with class ids `Layer = 0`, `A = 1`, `B = 2`, `A' = 3`
(`A'` a subclass of `A`, `A` and `B` unrelated subclasses of `Layer`), operator
`7` in the default commutative set, and a single registered rule for `(A, B)`,
the lookup `retrieve_rule(7, A', B)` succeeds by subtyping — but, because it
also caches the commutative mirror `(B, A')`, it flips `has_rule(7, B, A')`
from `False` to `True`, so the caching is observable beyond repeated lookups of
the same signature: the claim that caching never changes `has_rule` answers for
other signatures is false. -/
theorem c4_counterexample_caching_changes_has_rule :
    has_rule
      (fun a b => a == b || (a == 1 && b == 0) || (a == 2 && b == 0)
        || (a == 3 && b == 1) || (a == 3 && b == 0))
      [(7, [([1, 2], RuleFn.base 0)])] 7 [2, 3] = false
    ∧ retrieve_rule
        (fun a b => a == b || (a == 1 && b == 0) || (a == 2 && b == 0)
          || (a == 3 && b == 1) || (a == 3 && b == 0))
        [7] [(7, [([1, 2], RuleFn.base 0)])] 7 [3, 2]
      = .ok (RuleFn.base 0,
          [(7, [([1, 2], RuleFn.base 0), ([3, 2], RuleFn.base 0),
                ([2, 3], RuleFn.swap (RuleFn.base 0))])])
    ∧ has_rule
        (fun a b => a == b || (a == 1 && b == 0) || (a == 2 && b == 0)
          || (a == 3 && b == 1) || (a == 3 && b == 0))
        [(7, [([1, 2], RuleFn.base 0), ([3, 2], RuleFn.base 0),
              ([2, 3], RuleFn.swap (RuleFn.base 0))])] 7 [2, 3] = true := by
  refine ⟨by decide, by rfl, by decide⟩

/-- Witness for C4 at a concrete registry: the subclass relation is `b ≤ a` on
class ids (reflexive and transitive), operator `7` is commutative, one rule is
registered for `(1, 2)`, and the subtype lookup of `(3, 2)` returns that rule
while caching `(3, 2)` and the mirror `(2, 3)`. -/
theorem c4_retrieve_rule_caching_witness :
    retrieve_rule (fun a b => Nat.ble b a) [7] [(7, [([1, 2], RuleFn.base 0)])] 7 [3, 2]
      = .ok (RuleFn.base 0,
          [(7, [([1, 2], RuleFn.base 0), ([3, 2], RuleFn.base 0),
                ([2, 3], RuleFn.swap (RuleFn.base 0))])]) := by
  have h := (c4_retrieve_rule_caching (fun a b => Nat.ble b a)
    (fun a => by simp [Nat.ble_eq])
    (fun a b c h1 h2 => by
      simp only [Nat.ble_eq] at h1 h2 ⊢
      omega)
    [7] [(7, [([1, 2], RuleFn.base 0)])] 7 [3, 2]).2.2.1
    [([1, 2], RuleFn.base 0)] ([1, 2], RuleFn.base 0)
    (by decide) (by decide) (by decide)
  exact h.1.trans (by rfl)

/-! ## Symbolic circuit construction (`SymbCircuit.from_region_graph`,
`src/cirkit/symbolic/symb_circuit.py`)

The region graph type itself (`cirkit.templates.region_graph`) is not among the
provided sources; it is modelled from the specification: a list of nodes, each
a region or a partition with a scope and an ordered list of input nodes (given
by their indices in the list), with `nodes` already in a topological order
(every node's inputs appear strictly earlier in the list) and `output_nodes`
the region nodes on which no other node depends.

Layers produced by the factories are arena entities: the layer created by the
`k`-th factory call during the walk has id `k` (ids equal list positions in
`layers`), which models Python object identity.  The factories are assumed to
honour their interface (`input_factory(scope, num_units, num_channels)` etc.
produce a fresh layer of the corresponding kind with that scope and width);
any additional payload a concrete factory stores is irrelevant to the claims.

`out_layers` is a `defaultdict(list)`.  The code appends to
`out_layers[input_sl]` for input layers but *assigns*
`out_layers[in_sl] = prod_sl` (a bare layer object, not a list) for product
and inner sum/mixing layers; `PyVal` records which of the two shapes a stored
value has. -/

/-- Kind of a region graph node. -/
inductive RGKind where
  | region
  | part
deriving DecidableEq, Repr

/-- A region graph node: kind, scope, and inputs (indices of earlier nodes). -/
structure RGNode where
  kind : RGKind
  scope : List Nat
  inputs : List Nat
deriving DecidableEq, Repr

/-- Modelled from the spec: a region graph is its node list (in topological
order) together with the graph scope. -/
structure RegionGraphM where
  nodes : List RGNode
  scope : List Nat
deriving DecidableEq, Repr

/-- Modelled from the spec: `region_graph.output_nodes` contains the nodes with
no outgoing edges, that is, the nodes no other node lists among its inputs. -/
def RegionGraphM.isOutput (g : RegionGraphM) (i : Nat) : Bool :=
  !(g.nodes.any fun n => n.inputs.contains i)

/-- Kind of a symbolic layer emitted by `from_region_graph`. -/
inductive SymbLKind where
  | inputL
  | sumL
  | prodL
  | mixingL
deriving DecidableEq, Repr

/-- A symbolic layer as emitted by `from_region_graph`: kind, scope and width
(the payload a concrete factory adds is irrelevant to the claims). -/
structure SymbL where
  kind : SymbLKind
  scope : List Nat
  num_units : Nat
deriving DecidableEq, Repr

/-- A value stored in the `out_layers` dict: either a Python list of layer ids
(what the `defaultdict(list)` and `.append` produce) or a bare layer object
(what the assignments `out_layers[in_sl] = prod_sl` / `= sum_sl` store). -/
inductive PyVal where
  | plist (xs : List Nat)
  | obj (x : Nat)
deriving DecidableEq, Repr

/-- The mutable state of the `from_region_graph` walk: the emitted layers (the
layer with id `k` is `layers[k]`), the two edge dicts, the
region-graph-node-to-layer map, and the value of the local variable
`num_sum_units`, which the code reassigns (`num_sum_units = num_classes if rgn
in region_graph.output_nodes else num_sum_units`). -/
structure FRGState where
  layers : List SymbL
  in_layers : List (Nat × List Nat)
  out_layers : List (Nat × PyVal)
  rgn_to_layers : List (Nat × Nat)
  num_sum_units : Nat
deriving DecidableEq, Repr

/-- One iteration of the `for rgn in region_graph.nodes` loop of
`SymbCircuit.from_region_graph`, processing node `i`. -/
def frgStep (g : RegionGraphM) (num_channels num_input_units num_classes : Nat)
    (st : FRGState) (i : Nat) : FRGState :=
  match g.nodes.get? i with
  | none => st
  | some rgn =>
    match rgn.kind, rgn.inputs with
    | .region, [] =>
        let input_id := st.layers.length
        let sum_id := input_id + 1
        let nsu := if g.isOutput i then num_classes else st.num_sum_units
        { layers := st.layers
            ++ [⟨.inputL, rgn.scope, num_input_units⟩, ⟨.sumL, rgn.scope, nsu⟩],
          in_layers := dictInsert sum_id [input_id] st.in_layers,
          out_layers := dictInsert input_id (.plist [sum_id]) st.out_layers,
          rgn_to_layers := dictInsert i sum_id st.rgn_to_layers,
          num_sum_units := nsu }
    | .part, ins =>
        let prod_inputs := ins.map fun j => dictGetD j st.rgn_to_layers 0
        let prod_id := st.layers.length
        { layers := st.layers ++ [⟨.prodL, rgn.scope, st.num_sum_units⟩],
          in_layers := dictInsert prod_id prod_inputs st.in_layers,
          out_layers := prod_inputs.foldl
            (fun d in_sl => dictInsert in_sl (.obj prod_id) d) st.out_layers,
          rgn_to_layers := dictInsert i prod_id st.rgn_to_layers,
          num_sum_units := st.num_sum_units }
    | .region, ins =>
        let sum_inputs := ins.map fun j => dictGetD j st.rgn_to_layers 0
        let nsu := if g.isOutput i then num_classes else st.num_sum_units
        let k := if ins.length == 1 then SymbLKind.sumL else SymbLKind.mixingL
        let sum_id := st.layers.length
        { layers := st.layers ++ [⟨k, rgn.scope, nsu⟩],
          in_layers := dictInsert sum_id sum_inputs st.in_layers,
          out_layers := sum_inputs.foldl
            (fun d in_sl => dictInsert in_sl (.obj sum_id) d) st.out_layers,
          rgn_to_layers := dictInsert i sum_id st.rgn_to_layers,
          num_sum_units := nsu }

/-- `SymbCircuit.from_region_graph`: walk the region graph nodes in their
(topological) list order, emitting layers and edges. -/
def from_region_graph (g : RegionGraphM)
    (num_channels num_input_units num_sum_units num_classes : Nat) : FRGState :=
  (List.range g.nodes.length).foldl
    (frgStep g num_channels num_input_units num_classes)
    ⟨[], [], [], [], num_sum_units⟩

/-- C1: the claim says the Sum layer emitted for a leaf region has width
`num_classes` when the region is an output region and `num_sum_units`
otherwise, for every topological visit order.  The code instead *reassigns*
the local variable `num_sum_units` whenever it processes an output region, so
as soon as an output region is visited before some non-output region, that
later region's width is wrong.  Concrete failing region graph (topologically
ordered): node 0 a leaf region `{0}` with no consumers (an output region),
nodes 1 and 2 leaf regions `{1}`, `{2}` feeding partition node 3 of scope
`{1,2}`, node 4 the root region over that partition.  With
`num_sum_units = 2`, `num_classes = 3`: node 1 is not an output region, yet
its Sum layer (layer id 3) is emitted with width 3 = `num_classes` rather
than 2 = `num_sum_units`, because processing node 0 overwrote the variable. -/
theorem c1_leaf_sum_width_clobbered :
    (RegionGraphM.isOutput ⟨[⟨.region, [0], []⟩, ⟨.region, [1], []⟩, ⟨.region, [2], []⟩,
        ⟨.part, [1, 2], [1, 2]⟩, ⟨.region, [1, 2], [3]⟩], [0, 1, 2]⟩ 1 = false)
    ∧ (from_region_graph ⟨[⟨.region, [0], []⟩, ⟨.region, [1], []⟩, ⟨.region, [2], []⟩,
        ⟨.part, [1, 2], [1, 2]⟩, ⟨.region, [1, 2], [3]⟩], [0, 1, 2]⟩
        1 3 2 3).layers.get? 3 = some ⟨.sumL, [1], 3⟩
    ∧ (3 ≠ 2) := by
  refine ⟨by decide, by decide, by decide⟩

/-- C7: the claim (and the spec) say `in_layers` and `out_layers` are mutual
inverses whose values are ordered lists of layers.  In the code, the entries of
`out_layers` written while processing partition nodes and inner region nodes
are produced by `out_layers[in_sl] = prod_sl` — assigning a bare layer object
instead of appending to a list (compare the input-region branch, which
correctly does `out_layers[input_sl].append(sum_sl)`), also overwriting any
previous consumers.  Concrete failing region graph: leaf regions `{0}`, `{1}`,
partition `{0,1}` over them, root region `{0,1}`.  The product layer (id 4)
has `in_layers[4] = [1, 3]` (the two sum layers), but `out_layers[1]` is the
bare layer object `4`, not the list `[4]`, so the maps are not mutual
inverses with list values. -/
theorem c7_out_layers_not_lists :
    (dictGet 4 (from_region_graph ⟨[⟨.region, [0], []⟩, ⟨.region, [1], []⟩,
        ⟨.part, [0, 1], [0, 1]⟩, ⟨.region, [0, 1], [2]⟩], [0, 1]⟩
        1 3 2 1).in_layers = some [1, 3])
    ∧ (dictGet 1 (from_region_graph ⟨[⟨.region, [0], []⟩, ⟨.region, [1], []⟩,
        ⟨.part, [0, 1], [0, 1]⟩, ⟨.region, [0, 1], [2]⟩], [0, 1]⟩
        1 3 2 1).out_layers = some (.obj 4))
    ∧ ∀ xs : List Nat, PyVal.obj 4 ≠ PyVal.plist xs := by
  refine ⟨by decide, by decide, fun xs h => by cases h⟩

/-! ## Topological ordering (`cirkit.utils.algorithms.topological_ordering` and
its wrappers in `src/cirkit/symbolic/symb_circuit.py`)

The utility itself is not among the provided sources.  Modelled from the spec
(section 4.4): standard Kahn's algorithm — discover all nodes reachable from
the given roots through the `incomings` edges, then repeatedly emit and remove
nodes whose remaining in-degree is zero; fail (return `None`, which the
wrappers turn into the respective `ValueError`) when the discovered nodes
cannot all be emitted.

Nodes are `Nat` ids; a graph is given by its roots and an association list
`adj` mapping a node to its list of incomings (`in_layers` for the layer-level
wrapper, `operation.operands` for the pipeline-level wrapper, a missing key
meaning no incomings / no operation).  Discovery is computed as the
`|support|`-fold iteration of the one-step closure operator, which provably
reaches the closure because the support bounds the reachable set. -/

/-- The `incomings_fn` of a graph given as an association list. -/
def incOf (adj : List (Nat × List Nat)) (v : Nat) : List Nat :=
  dictGetD v adj []

/-- All node ids mentioned by the graph: roots, keys, and listed incomings.
Every reachable node lies in this list, which bounds the discovery iteration. -/
def tsupport (roots : List Nat) (adj : List (Nat × List Nat)) : List Nat :=
  (roots ++ adj.flatMap fun p => p.1 :: p.2).dedup

/-- One step of reachability discovery: add the incomings of the current set. -/
def stepR (inc : Nat → List Nat) (s : List Nat) : List Nat :=
  (s ++ s.flatMap inc).dedup

/-- `n`-fold iterated discovery from the roots. -/
def reachN (inc : Nat → List Nat) (roots : List Nat) : Nat → List Nat
  | 0 => roots.dedup
  | n + 1 => stepR inc (reachN inc roots n)

/-- The discovered set of Kahn's algorithm: all nodes reachable from the roots
through the incomings edges (the iteration saturates within `|support|`
steps). -/
def discovered (roots : List Nat) (adj : List (Nat × List Nat)) : List Nat :=
  reachN (incOf adj) roots (tsupport roots adj).length

/-- The emission loop of Kahn's algorithm: repeatedly emit (append to `acc`)
and remove a node of the remaining set all of whose incomings are outside the
remaining set (zero remaining in-degree); return `none` when remaining nodes
exist but none is emittable. -/
def kahnAux (inc : Nat → List Nat) : Nat → List Nat → List Nat → Option (List Nat)
  | _, acc, [] => some acc
  | 0, _, _ :: _ => none
  | fuel + 1, acc, r :: rs =>
      match (r :: rs).find? (fun v => (inc v).all fun p => !((r :: rs).contains p)) with
      | none => none
      | some v => kahnAux inc fuel (acc ++ [v]) ((r :: rs).erase v)

/-- Modelled from the spec: `cirkit.utils.algorithms.topological_ordering`. -/
def topological_ordering (roots : List Nat) (adj : List (Nat × List Nat)) :
    Option (List Nat) :=
  kahnAux (incOf adj) (discovered roots adj).length [] (discovered roots adj)

/-- A symbolic circuit reduced to what the ordering wrappers consume: its
layer ids and the two edge dicts. -/
structure SymbCircuitG where
  layers : List Nat
  in_layers : List (Nat × List Nat)
  out_layers : List (Nat × List Nat)
deriving DecidableEq, Repr

/-- `SymbCircuit.output_layers`: the layers whose `out_layers` entry is empty
(`self._out_layers` is a `defaultdict(list)`, so a missing key reads as `[]`). -/
def SymbCircuitG.output_layers (c : SymbCircuitG) : List Nat :=
  c.layers.filter fun v => dictGetD v c.out_layers [] == []

/-- `SymbCircuit.layers_topological_ordering`: run the ordering utility on the
output layers with `incomings_fn = self._in_layers[...]`, raising the
layer-cycle `ValueError` when it returns `None`. -/
def layers_topological_ordering (c : SymbCircuitG) : Except String (List Nat) :=
  match topological_ordering c.output_layers c.in_layers with
  | some ordering => .ok ordering
  | none => .error "The given symbolic circuit has at least one layers cycle"

/-- `pipeline_topological_ordering`: run the ordering utility on the root
circuits with `incomings_fn` returning `operation.operands` (empty when the
circuit has no operation — a missing key in `ops`), raising the pipeline-cycle
`ValueError` when it returns `None`. -/
def pipeline_topological_ordering (roots : List Nat) (ops : List (Nat × List Nat)) :
    Except String (List Nat) :=
  match topological_ordering roots ops with
  | some ordering => .ok ordering
  | none => .error "The given symbolic circuits pipeline has at least one cycle"

/-- Reachability from the roots through the incomings edges. -/
inductive Reaches (inc : Nat → List Nat) (roots : List Nat) : Nat → Prop
  | root {v : Nat} : v ∈ roots → Reaches inc roots v
  | step {u v : Nat} : Reaches inc roots u → v ∈ inc u → Reaches inc roots v

/-- `c` is a directed cycle of the incomings edges: consecutive elements
`a, b` of the cyclic sequence (the head following the last element again)
satisfy `b ∈ inc a` — each next listed element is an incoming of the current
one, so the list walks a directed cycle of the graph against the edge
direction. -/
def IsIncCycle (inc : Nat → List Nat) : List Nat → Prop
  | [] => False
  | v :: vs => List.Chain (fun a b => b ∈ inc a) v (vs ++ [v])

theorem mem_stepR {inc : Nat → List Nat} {s : List Nat} {x : Nat} :
    x ∈ stepR inc s ↔ x ∈ s ∨ ∃ v ∈ s, x ∈ inc v := by
  unfold stepR
  rw [List.mem_dedup, List.mem_append, List.mem_flatMap]

theorem nodup_reachN (inc : Nat → List Nat) (roots : List Nat) (n : Nat) :
    (reachN inc roots n).Nodup := by
  cases n with
  | zero => exact List.nodup_dedup roots
  | succ m => exact List.nodup_dedup _

theorem reachN_subset_succ {inc : Nat → List Nat} {roots : List Nat} {n : Nat} {x : Nat}
    (h : x ∈ reachN inc roots n) : x ∈ reachN inc roots (n + 1) := by
  exact mem_stepR.mpr (Or.inl h)

theorem reachN_subset_le {inc : Nat → List Nat} {roots : List Nat} {m n : Nat}
    (hmn : m ≤ n) {x : Nat} (h : x ∈ reachN inc roots m) : x ∈ reachN inc roots n := by
  induction n with
  | zero => rw [Nat.le_zero.mp hmn] at h; exact h
  | succ k ih =>
    rcases Nat.le_succ_iff.mp hmn with hle | heq
    · exact reachN_subset_succ (ih hle)
    · rw [heq] at h; exact h

theorem mem_incOf_support {roots : List Nat} {adj : List (Nat × List Nat)} {v x : Nat}
    (h : x ∈ incOf adj v) : x ∈ tsupport roots adj := by
  unfold incOf dictGetD dictGet at h
  cases hf : adj.find? (fun p => p.1 == v) with
  | none => rw [hf] at h; simp at h
  | some p =>
    rw [hf] at h
    simp only [Option.map_some', Option.getD_some] at h
    unfold tsupport
    rw [List.mem_dedup, List.mem_append, List.mem_flatMap]
    exact Or.inr ⟨p, List.mem_of_find?_eq_some hf, List.mem_cons_of_mem _ h⟩

theorem reachN_subset_support (roots : List Nat) (adj : List (Nat × List Nat)) :
    ∀ n, ∀ x ∈ reachN (incOf adj) roots n, x ∈ tsupport roots adj := by
  intro n
  induction n with
  | zero =>
    intro x hx
    rw [reachN, List.mem_dedup] at hx
    unfold tsupport
    rw [List.mem_dedup, List.mem_append]
    exact Or.inl hx
  | succ m ih =>
    intro x hx
    rw [reachN] at hx
    rcases mem_stepR.mp hx with hx | ⟨v, _, hx⟩
    · exact ih x hx
    · exact mem_incOf_support hx

theorem stepR_congr {inc : Nat → List Nat} {s t : List Nat}
    (h : ∀ x, x ∈ s ↔ x ∈ t) : ∀ x, x ∈ stepR inc s ↔ x ∈ stepR inc t := by
  intro x
  rw [mem_stepR, mem_stepR]
  constructor
  · rintro (hx | ⟨v, hv, hx⟩)
    · exact Or.inl ((h x).mp hx)
    · exact Or.inr ⟨v, (h v).mp hv, hx⟩
  · rintro (hx | ⟨v, hv, hx⟩)
    · exact Or.inl ((h x).mpr hx)
    · exact Or.inr ⟨v, (h v).mpr hv, hx⟩

theorem reachN_stable {inc : Nat → List Nat} {roots : List Nat} {n : Nat}
    (h : ∀ x, x ∈ reachN inc roots (n + 1) ↔ x ∈ reachN inc roots n) :
    ∀ m, n ≤ m → ∀ x, x ∈ reachN inc roots m ↔ x ∈ reachN inc roots n := by
  intro m
  induction m with
  | zero => intro hm x; rw [Nat.le_zero.mp hm]
  | succ k ih =>
    intro hm x
    rcases Nat.le_succ_iff.mp hm with hle | heq
    · have hk := ih hle
      have : ∀ y, y ∈ reachN inc roots (k + 1) ↔ y ∈ reachN inc roots (n + 1) := by
        intro y
        rw [reachN, reachN]
        exact stepR_congr hk y
      rw [this x, h x]
    · rw [heq]

theorem nodup_tsupport (roots : List Nat) (adj : List (Nat × List Nat)) :
    (tsupport roots adj).Nodup := List.nodup_dedup _

theorem length_le_of_nodup_subset {s t : List Nat} (hs : s.Nodup)
    (ht : t.Nodup) (hsub : ∀ x ∈ s, x ∈ t) : s.length ≤ t.length := by
  have h1 : s.toFinset.card = s.length := List.toFinset_card_of_nodup hs
  have h2 : t.toFinset.card = t.length := List.toFinset_card_of_nodup ht
  rw [← h1, ← h2]
  apply Finset.card_le_card
  intro x hx
  rw [List.mem_toFinset] at hx ⊢
  exact hsub x hx

theorem length_lt_of_nodup_ssubset {s t : List Nat} (hs : s.Nodup)
    (ht : t.Nodup) (hsub : ∀ x ∈ s, x ∈ t) (hx : ∃ x ∈ t, x ∉ s) :
    s.length < t.length := by
  have h1 : s.toFinset.card = s.length := List.toFinset_card_of_nodup hs
  have h2 : t.toFinset.card = t.length := List.toFinset_card_of_nodup ht
  rw [← h1, ← h2]
  apply Finset.card_lt_card
  constructor
  · intro x hxx
    rw [List.mem_toFinset] at *
    exact hsub x hxx
  · intro hcon
    obtain ⟨x, hxt, hxs⟩ := hx
    exact hxs (List.mem_toFinset.mp (hcon (List.mem_toFinset.mpr hxt)))

theorem reachN_saturates (roots : List Nat) (adj : List (Nat × List Nat)) :
    ∃ n ≤ (tsupport roots adj).length,
      ∀ x, x ∈ reachN (incOf adj) roots (n + 1) ↔ x ∈ reachN (incOf adj) roots n := by
  by_contra hcon
  push_neg at hcon
  set N := (tsupport roots adj).length with hN
  have hstrict : ∀ n ≤ N, (reachN (incOf adj) roots n).length
      < (reachN (incOf adj) roots (n + 1)).length := by
    intro n hn
    obtain ⟨x, hx⟩ := hcon n hn
    refine length_lt_of_nodup_ssubset (nodup_reachN _ _ _) (nodup_reachN _ _ _)
      (fun y hy => reachN_subset_succ hy) ?_
    rcases hx with ⟨hx1, hx0⟩ | ⟨hx1, hx0⟩
    · exact ⟨x, hx1, hx0⟩
    · exact absurd (reachN_subset_succ hx0) hx1
  have hgrow : ∀ n ≤ N + 1, n ≤ (reachN (incOf adj) roots n).length := by
    intro n
    induction n with
    | zero => intro _; exact Nat.zero_le _
    | succ k ih =>
      intro hk
      have h1 := ih (Nat.le_of_succ_le hk)
      have h2 := hstrict k (Nat.lt_succ_iff.mp hk)
      omega
  have hboundN : (reachN (incOf adj) roots (N + 1)).length ≤ N := by
    exact length_le_of_nodup_subset (nodup_reachN _ _ _) (nodup_tsupport roots adj)
      (reachN_subset_support roots adj (N + 1))
  have := hgrow (N + 1) (Nat.le_refl _)
  omega

theorem discovered_closed {roots : List Nat} {adj : List (Nat × List Nat)} :
    ∀ v ∈ discovered roots adj, ∀ x ∈ incOf adj v, x ∈ discovered roots adj := by
  obtain ⟨n, hn, hsat⟩ := reachN_saturates roots adj
  set N := (tsupport roots adj).length with hN
  have hNn := reachN_stable hsat N hn
  have hN1n := reachN_stable hsat (N + 1) (Nat.le_succ_of_le hn)
  intro v hv x hx
  unfold discovered at hv ⊢
  have hvn : v ∈ reachN (incOf adj) roots n := (hNn v).mp hv
  have : x ∈ reachN (incOf adj) roots (n + 1) := by
    rw [reachN]
    exact mem_stepR.mpr (Or.inr ⟨v, hvn, hx⟩)
  have hxn : x ∈ reachN (incOf adj) roots n := (hsat x).mp this
  exact (hNn x).mpr hxn

theorem roots_subset_discovered {roots : List Nat} {adj : List (Nat × List Nat)}
    {v : Nat} (hv : v ∈ roots) : v ∈ discovered roots adj := by
  unfold discovered
  exact reachN_subset_le (Nat.zero_le _) (by rw [reachN, List.mem_dedup]; exact hv)

theorem discovered_sound {roots : List Nat} {adj : List (Nat × List Nat)} :
    ∀ v ∈ discovered roots adj, Reaches (incOf adj) roots v := by
  unfold discovered
  generalize (tsupport roots adj).length = n
  induction n with
  | zero =>
    intro v hv
    rw [reachN, List.mem_dedup] at hv
    exact Reaches.root hv
  | succ k ih =>
    intro v hv
    rw [reachN] at hv
    rcases mem_stepR.mp hv with hv | ⟨u, hu, hv⟩
    · exact ih v hv
    · exact Reaches.step (ih u hu) hv

theorem discovered_complete {roots : List Nat} {adj : List (Nat × List Nat)}
    {v : Nat} (h : Reaches (incOf adj) roots v) : v ∈ discovered roots adj := by
  induction h with
  | root hv => exact roots_subset_discovered hv
  | step _ hv ih => exact discovered_closed _ ih _ hv

theorem take_append_of_le {α : Type} {l₁ l₂ : List α} {k : Nat} (h : k ≤ l₁.length) :
    (l₁ ++ l₂).take k = l₁.take k := by
  rw [List.take_append_eq_append_take, Nat.sub_eq_zero_of_le h, List.take_zero,
    List.append_nil]

/-- Invariant-carrying specification of the Kahn emission loop: whenever it
succeeds it emits exactly the discovered set, without duplicates, and every
node's discovered incomings are emitted strictly earlier. -/
theorem kahnAux_spec (inc : Nat → List Nat) (dset : List Nat) :
    ∀ fuel acc rem l,
      rem.length ≤ fuel →
      rem.Nodup → acc.Nodup →
      (∀ x ∈ rem, x ∈ dset) → (∀ x ∈ acc, x ∈ dset) →
      (∀ x ∈ dset, x ∈ acc ∨ x ∈ rem) →
      (∀ x ∈ acc, x ∉ rem) →
      (∀ k (hk : k < acc.length), ∀ p ∈ inc (acc.get ⟨k, hk⟩), p ∈ dset → p ∈ acc.take k) →
      kahnAux inc fuel acc rem = some l →
      ((∀ x, x ∈ l ↔ x ∈ dset) ∧ l.Nodup ∧
        (∀ k (hk : k < l.length), ∀ p ∈ inc (l.get ⟨k, hk⟩), p ∈ dset → p ∈ l.take k)) := by
  intro fuel
  induction fuel with
  | zero =>
    intro acc rem l hlen hremnd haccnd hremd haccd hcover hdisj horder heq
    cases rem with
    | nil =>
      rw [kahnAux] at heq
      obtain rfl : acc = l := by injection heq
      refine ⟨?_, haccnd, horder⟩
      intro x
      constructor
      · exact haccd x
      · intro hx
        rcases hcover x hx with hx | hx
        · exact hx
        · exact absurd hx (by simp)
    | cons r rs => simp at hlen
  | succ fuel ih =>
    intro acc rem l hlen hremnd haccnd hremd haccd hcover hdisj horder heq
    cases rem with
    | nil =>
      rw [kahnAux] at heq
      obtain rfl : acc = l := by injection heq
      refine ⟨?_, haccnd, horder⟩
      intro x
      constructor
      · exact haccd x
      · intro hx
        rcases hcover x hx with hx | hx
        · exact hx
        · exact absurd hx (by simp)
    | cons r rs =>
      rw [kahnAux] at heq
      cases hfind : (r :: rs).find?
          (fun v => (inc v).all fun p => !((r :: rs).contains p)) with
      | none => rw [hfind] at heq; exact absurd heq (by simp)
      | some v =>
        rw [hfind] at heq
        dsimp only at heq
        have hvmem : v ∈ r :: rs := List.mem_of_find?_eq_some hfind
        have hready : ∀ p ∈ inc v, p ∉ r :: rs := by
          have := List.find?_some hfind
          rw [List.all_eq_true] at this
          intro p hp hpmem
          have h1 := this p hp
          rw [Bool.not_eq_true'] at h1
          rw [← List.elem_iff] at hpmem
          rw [List.contains] at h1
          rw [h1] at hpmem
          exact Bool.false_ne_true hpmem
        have hvnacc : v ∉ acc := fun hva => hdisj v hva hvmem
        refine ih (acc ++ [v]) ((r :: rs).erase v) l ?_ ?_ ?_ ?_ ?_ ?_ ?_ ?_ heq
        · rw [List.length_erase_of_mem hvmem]
          simp only [List.length_cons] at hlen ⊢
          omega
        · exact hremnd.erase v
        · exact haccnd.append (by simp) (by
            intro a ha hav
            rw [List.mem_singleton] at hav
            exact hvnacc (hav ▸ ha))
        · intro x hx
          exact hremd x (List.mem_of_mem_erase hx)
        · intro x hx
          rcases List.mem_append.mp hx with hx | hx
          · exact haccd x hx
          · rw [List.mem_singleton] at hx
            exact hx ▸ hremd v hvmem
        · intro x hx
          rcases hcover x hx with hx1 | hx1
          · exact Or.inl (List.mem_append_left _ hx1)
          · by_cases hxv : x = v
            · exact Or.inl (List.mem_append_right _ (by simp [hxv]))
            · exact Or.inr ((List.mem_erase_of_ne hxv).mpr hx1)
        · intro x hx hx'
          rcases List.mem_append.mp hx with hx1 | hx1
          · exact hdisj x hx1 (List.mem_of_mem_erase hx')
          · rw [List.mem_singleton] at hx1
            subst hx1
            exact hremnd.not_mem_erase hx'
        · intro k hk p hp hpd
          have hk2 : k < acc.length + 1 := by
            rw [List.length_append, List.length_singleton] at hk
            exact hk
          by_cases hkacc : k < acc.length
          · have hget : (acc ++ [v]).get ⟨k, hk⟩ = acc.get ⟨k, hkacc⟩ :=
              List.getElem_append_left hkacc
            rw [hget] at hp
            rw [take_append_of_le (Nat.le_of_lt hkacc)]
            exact horder k hkacc p hp hpd
          · have hkeq : k = acc.length := by omega
            have hget : (acc ++ [v]).get ⟨k, hk⟩ = v :=
              List.getElem_concat_length acc v k hkeq hk
            rw [hget] at hp
            rw [hkeq, List.take_left]
            rcases hcover p hpd with hpa | hpr
            · exact hpa
            · exact absurd hpr (hready p hp)

theorem nodup_discovered (roots : List Nat) (adj : List (Nat × List Nat)) :
    (discovered roots adj).Nodup := nodup_reachN _ _ _

/-- What a successful `topological_ordering` returns: exactly the discovered
set, without duplicates, every node preceded by its discovered incomings. -/
theorem topological_ordering_spec {roots : List Nat} {adj : List (Nat × List Nat)}
    {l : List Nat} (h : topological_ordering roots adj = some l) :
    (∀ x, x ∈ l ↔ x ∈ discovered roots adj) ∧ l.Nodup ∧
    (∀ k (hk : k < l.length), ∀ p ∈ incOf adj (l.get ⟨k, hk⟩),
      p ∈ discovered roots adj → p ∈ l.take k) := by
  refine kahnAux_spec (incOf adj) (discovered roots adj)
    (discovered roots adj).length [] (discovered roots adj) l (Nat.le_refl _)
    (nodup_discovered roots adj) List.nodup_nil
    (fun x hx => hx) (fun x hx => absurd hx (by simp)) (fun x hx => Or.inr hx)
    (fun x hx => absurd hx (by simp)) ?_ h
  intro k hk
  exact absurd hk (by simp)

/-- When the emission loop fails, it is stuck on a nonempty set of remaining
nodes each of which still has an incoming inside that set. -/
theorem kahnAux_none_pred (inc : Nat → List Nat) :
    ∀ fuel acc rem, rem.length ≤ fuel → kahnAux inc fuel acc rem = none →
      ∃ rem', rem' ≠ [] ∧ (∀ x ∈ rem', x ∈ rem) ∧
        (∀ v ∈ rem', ∃ p, p ∈ inc v ∧ p ∈ rem') := by
  intro fuel
  induction fuel with
  | zero =>
    intro acc rem hlen heq
    cases rem with
    | nil => rw [kahnAux] at heq; exact absurd heq (by simp)
    | cons r rs => simp at hlen
  | succ fuel ih =>
    intro acc rem hlen heq
    cases rem with
    | nil => rw [kahnAux] at heq; exact absurd heq (by simp)
    | cons r rs =>
      rw [kahnAux] at heq
      cases hfind : (r :: rs).find?
          (fun v => (inc v).all fun p => !((r :: rs).contains p)) with
      | none =>
        refine ⟨r :: rs, by simp, fun x hx => hx, ?_⟩
        intro v hv
        have hnall := List.find?_eq_none.mp hfind v hv
        rw [Bool.not_eq_true, List.all_eq_false] at hnall
        obtain ⟨p, hp, hpb⟩ := hnall
        have hbb : (r :: rs).contains p = true := by
          cases hcp : (r :: rs).contains p with
          | true => rfl
          | false => exact absurd (by rw [hcp]; rfl) hpb
        exact ⟨p, hp, by simpa using hbb⟩
      | some v =>
        rw [hfind] at heq
        dsimp only at heq
        have hvmem : v ∈ r :: rs := List.mem_of_find?_eq_some hfind
        obtain ⟨rem', hne, hsub, hpred⟩ := ih (acc ++ [v]) ((r :: rs).erase v)
          (by rw [List.length_erase_of_mem hvmem]
              simp only [List.length_cons] at hlen ⊢
              omega) heq
        exact ⟨rem', hne, fun x hx => List.mem_of_mem_erase (hsub x hx), hpred⟩

/-- Every element of a list admits a minimizer of any `Nat`-valued function. -/
theorem exists_argmin (f : Nat → Nat) :
    ∀ (c : List Nat), c ≠ [] → ∃ b ∈ c, ∀ a ∈ c, f b ≤ f a := by
  intro c
  induction c with
  | nil => intro h; exact absurd rfl h
  | cons x t ih =>
    intro _
    cases t with
    | nil =>
      refine ⟨x, List.mem_cons_self _ _, ?_⟩
      intro a ha
      rw [List.mem_singleton] at ha
      rw [ha]
    | cons y t' =>
      obtain ⟨b, hb, hbmin⟩ := ih (by simp)
      by_cases hxb : f x ≤ f b
      · refine ⟨x, List.mem_cons_self _ _, ?_⟩
        intro a ha
        rcases List.mem_cons.mp ha with rfl | ha
        · exact Nat.le_refl _
        · exact Nat.le_trans hxb (hbmin a ha)
      · refine ⟨b, List.mem_cons_of_mem _ hb, ?_⟩
        intro a ha
        rcases List.mem_cons.mp ha with rfl | ha
        · exact Nat.le_of_lt (Nat.lt_of_not_le hxb)
        · exact hbmin a ha

theorem indexOf_lt_of_mem_take {x : Nat} :
    ∀ (l : List Nat) (k : Nat), x ∈ l.take k → l.indexOf x < k := by
  intro l
  induction l with
  | nil => intro k h; simp at h
  | cons a t ih =>
    intro k h
    cases k with
    | zero => simp at h
    | succ k' =>
      rw [List.take_succ_cons] at h
      by_cases hxa : x = a
      · rw [hxa, List.indexOf_cons_self]
        exact Nat.succ_pos _
      · rcases List.mem_cons.mp h with h1 | h1
        · exact absurd h1 hxa
        · rw [List.indexOf_cons_ne _ (fun hh => hxa hh.symm)]
          exact Nat.succ_lt_succ (ih k' h1)

/-- In a chain whose relation is `fun a b => b ∈ inc a`, every element of the
cycle list has a successor (inside the chain list) that is one of its
incomings. -/
theorem chain_succ_mem {inc : Nat → List Nat} :
    ∀ {v : Nat} {l : List Nat}, List.Chain (fun a b => b ∈ inc a) v l →
    ∀ x, ((x = v ∧ l ≠ []) ∨ x ∈ l.dropLast) → ∃ y ∈ l, y ∈ inc x := by
  intro v l
  induction l generalizing v with
  | nil =>
    intro _ x hx
    rcases hx with ⟨_, hne⟩ | hx
    · exact absurd rfl hne
    · simp at hx
  | cons b l' ih =>
    intro h x hx
    cases h with
    | cons hvb hchain =>
      rcases hx with ⟨rfl, _⟩ | hx
      · exact ⟨b, List.mem_cons_self _ _, hvb⟩
      · cases l' with
        | nil => simp at hx
        | cons b2 l'' =>
          rw [List.dropLast_cons₂] at hx
          rcases List.mem_cons.mp hx with rfl | hx
          · cases hchain with
            | cons hb2 _ =>
              exact ⟨b2, List.mem_cons_of_mem _ (List.mem_cons_self _ _), hb2⟩
          · obtain ⟨y, hy, hyx⟩ := ih hchain x (Or.inr hx)
            exact ⟨y, List.mem_cons_of_mem _ hy, hyx⟩

/-- Every member of a cycle has an incoming that is also a member of the
cycle. -/
theorem cycle_mem_inc {inc : Nat → List Nat} {c : List Nat}
    (hc : IsIncCycle inc c) : ∀ x ∈ c, ∃ y ∈ c, y ∈ inc x := by
  cases c with
  | nil => exact absurd hc (by rw [IsIncCycle]; exact fun h => h)
  | cons v vs =>
    rw [IsIncCycle] at hc
    intro x hx
    have hdl : (vs ++ [v]).dropLast = vs := List.dropLast_concat
    have hx' : (x = v ∧ vs ++ [v] ≠ []) ∨ x ∈ (vs ++ [v]).dropLast := by
      rcases List.mem_cons.mp hx with rfl | hx1
      · exact Or.inl ⟨rfl, by simp⟩
      · rw [hdl]; exact Or.inr hx1
    obtain ⟨y, hy, hyx⟩ := chain_succ_mem hc x hx'
    rcases List.mem_append.mp hy with hy1 | hy1
    · exact ⟨y, List.mem_cons_of_mem _ hy1, hyx⟩
    · rw [List.mem_singleton] at hy1
      exact ⟨y, by rw [hy1]; exact List.mem_cons_self _ _, hyx⟩

/-- A cycle among discovered nodes makes `topological_ordering` fail: a
successful ordering would place every cycle member after another member. -/
theorem topological_ordering_cycle_none {roots : List Nat}
    {adj : List (Nat × List Nat)} {c : List Nat}
    (hc : IsIncCycle (incOf adj) c)
    (hsub : ∀ x ∈ c, x ∈ discovered roots adj) :
    topological_ordering roots adj = none := by
  cases h : topological_ordering roots adj with
  | none => rfl
  | some l =>
    exfalso
    obtain ⟨hmem, hnd, horder⟩ := topological_ordering_spec h
    have hcne : c ≠ [] := by
      intro hcc
      rw [hcc] at hc
      exact absurd hc (by rw [IsIncCycle]; exact fun hh => hh)
    obtain ⟨b, hbc, hbmin⟩ := exists_argmin (fun x => l.indexOf x) c hcne
    have hbl : b ∈ l := (hmem b).mpr (hsub b hbc)
    have hk : l.indexOf b < l.length := List.indexOf_lt_length.mpr hbl
    have hgetb : l.get ⟨l.indexOf b, hk⟩ = b := List.indexOf_get hk
    obtain ⟨y, hyc, hyb⟩ := cycle_mem_inc hc b hbc
    have hytake : y ∈ l.take (l.indexOf b) := by
      refine horder (l.indexOf b) hk y ?_ (hsub y hyc)
      rw [hgetb]
      exact hyb
    have : l.indexOf y < l.indexOf b := indexOf_lt_of_mem_take l _ hytake
    have := hbmin y hyc
    omega

/-- If every node of a nonempty set has an incoming inside the set, the set
contains a directed cycle (iterate a choice of incomings and apply the
pigeonhole principle). -/
theorem exists_cycle_of_pred (inc : Nat → List Nat) (rem : List Nat) (hne : rem ≠ [])
    (h : ∀ v ∈ rem, ∃ p, p ∈ inc v ∧ p ∈ rem) :
    ∃ c, IsIncCycle inc c ∧ ∀ x ∈ c, x ∈ rem := by
  classical
  obtain ⟨v₀, hv₀⟩ := List.exists_mem_of_ne_nil rem hne
  have hGex : ∀ v : Nat, ∃ p, v ∈ rem → (p ∈ inc v ∧ p ∈ rem) := by
    intro v
    by_cases hv : v ∈ rem
    · obtain ⟨p, hp⟩ := h v hv
      exact ⟨p, fun _ => hp⟩
    · exact ⟨0, fun hvv => absurd hvv hv⟩
  choose G hG using hGex
  have hwsucc : ∀ n : Nat, G^[n + 1] v₀ = G (G^[n] v₀) := by
    intro n
    exact Function.iterate_succ_apply' G n v₀
  have hwmem : ∀ n : Nat, G^[n] v₀ ∈ rem := by
    intro n
    induction n with
    | zero => exact hv₀
    | succ k ih =>
      rw [hwsucc]
      exact (hG (G^[k] v₀) ih).2
  have hwstep : ∀ n : Nat, G^[n + 1] v₀ ∈ inc (G^[n] v₀) := by
    intro n
    rw [hwsucc]
    exact (hG (G^[n] v₀) (hwmem n)).1
  have hcard : rem.toFinset.card < (Finset.range (rem.length + 1)).card := by
    rw [Finset.card_range]
    exact Nat.lt_succ_of_le (List.toFinset_card_le rem)
  obtain ⟨a, _, b, _, hab, heqw⟩ := Finset.exists_ne_map_eq_of_card_lt_of_maps_to hcard
    (fun n _ => List.mem_toFinset.mpr (hwmem n))
  have hchain : ∀ (len start : Nat) (z : Nat), z ∈ inc (G^[start + len] v₀) →
      List.Chain (fun x y => y ∈ inc x) (G^[start] v₀)
        ((List.range' (start + 1) len).map (fun n => G^[n] v₀) ++ [z]) := by
    intro len
    induction len with
    | zero =>
      intro start z hz
      simp only [List.range', List.map_nil, List.nil_append]
      exact List.Chain.cons (by simpa using hz) List.Chain.nil
    | succ len ihl =>
      intro start z hz
      rw [List.range'_succ]
      simp only [List.map_cons, List.cons_append]
      refine List.Chain.cons (hwstep start) ?_
      have harith : start + 1 + len = start + (len + 1) := by omega
      exact ihl (start + 1) z (by rw [harith]; exact hz)
  have main : ∀ i j : Nat, i < j → G^[i] v₀ = G^[j] v₀ →
      ∃ c, IsIncCycle inc c ∧ ∀ x ∈ c, x ∈ rem := by
    intro i j hij heq
    have hz : G^[i] v₀ ∈ inc (G^[i + (j - i - 1)] v₀) := by
      have h1 : i + (j - i - 1) = j - 1 := by omega
      have h2 : j - 1 + 1 = j := by omega
      rw [h1, heq, ← h2]
      exact hwstep (j - 1)
    refine ⟨G^[i] v₀ :: (List.range' (i + 1) (j - i - 1)).map (fun n => G^[n] v₀),
      hchain (j - i - 1) i (G^[i] v₀) hz, ?_⟩
    intro x hx
    rcases List.mem_cons.mp hx with rfl | hx
    · exact hwmem i
    · obtain ⟨n, _, hn⟩ := List.mem_map.mp hx
      rw [← hn]
      exact hwmem n
  rcases Nat.lt_or_ge a b with hab' | hab'
  · exact main a b hab' heqw
  · have : b < a := Nat.lt_of_le_of_ne hab' (fun hh => hab hh.symm)
    exact main b a this heqw.symm

/-- When no cycle lies inside the discovered set, Kahn's algorithm succeeds. -/
theorem topological_ordering_some_of_acyclic (roots : List Nat)
    (adj : List (Nat × List Nat))
    (hacyc : ¬ ∃ c, IsIncCycle (incOf adj) c ∧ ∀ x ∈ c, x ∈ discovered roots adj) :
    ∃ l, topological_ordering roots adj = some l := by
  cases h : topological_ordering roots adj with
  | some l => exact ⟨l, rfl⟩
  | none =>
    exfalso
    obtain ⟨rem', hne, hsub, hpred⟩ := kahnAux_none_pred (incOf adj)
      (discovered roots adj).length [] (discovered roots adj) (Nat.le_refl _) h
    obtain ⟨c, hc, hcsub⟩ := exists_cycle_of_pred (incOf adj) rem' hne hpred
    exact hacyc ⟨c, hc, fun x hx => hsub x (hcsub x hx)⟩

/-- C3 (amended): every ordering returned by `layers_topological_ordering`
places each incoming `P` of a layer `L` strictly before `L` (`P` occurs among
the first `k` entries when `L` is the `k`-th); every ordering returned by
`pipeline_topological_ordering` consists exactly of the circuits reachable
from the roots through `operation.operands`, without duplicates, each after
all its operands; an acyclic pipeline always gets an ordering; and — the
amendment forced by the counterexample — a cycle raises the respective
cycle error (the layer-cycle message differing from the pipeline-cycle
message) when the cycle is reachable from the ordering roots (for the
pipeline: from the root circuits, which covers every pipeline cycle; for the
layers: from the circuit's output layers — a layer cycle unreachable from
every output layer is not detected). -/
theorem c3_topological_ordering_amended
    (c : SymbCircuitG) (roots : List Nat) (ops : List (Nat × List Nat))
    (cycL cycP : List Nat) :
    (∀ l, layers_topological_ordering c = .ok l →
      ∀ k (hk : k < l.length), ∀ p ∈ incOf c.in_layers (l.get ⟨k, hk⟩), p ∈ l.take k)
    ∧ (∀ l, pipeline_topological_ordering roots ops = .ok l →
        (∀ v, v ∈ l ↔ Reaches (incOf ops) roots v) ∧ l.Nodup ∧
        (∀ k (hk : k < l.length), ∀ p ∈ incOf ops (l.get ⟨k, hk⟩), p ∈ l.take k))
    ∧ ((¬ ∃ cc, IsIncCycle (incOf ops) cc ∧ ∀ x ∈ cc, Reaches (incOf ops) roots x) →
        ∃ l, pipeline_topological_ordering roots ops = .ok l)
    ∧ (IsIncCycle (incOf c.in_layers) cycL →
        (∀ x ∈ cycL, Reaches (incOf c.in_layers) c.output_layers x) →
        layers_topological_ordering c =
          .error "The given symbolic circuit has at least one layers cycle")
    ∧ (IsIncCycle (incOf ops) cycP →
        (∀ x ∈ cycP, Reaches (incOf ops) roots x) →
        pipeline_topological_ordering roots ops =
          .error "The given symbolic circuits pipeline has at least one cycle")
    ∧ ("The given symbolic circuit has at least one layers cycle"
        ≠ "The given symbolic circuits pipeline has at least one cycle") := by
  refine ⟨?_, ?_, ?_, ?_, ?_, by decide⟩
  · intro l hl k hk p hp
    unfold layers_topological_ordering at hl
    cases htopo : topological_ordering c.output_layers c.in_layers with
    | none => rw [htopo] at hl; exact absurd hl (by simp)
    | some l' =>
      rw [htopo] at hl
      have hl' : l' = l := by injection hl
      have htopo2 : topological_ordering c.output_layers c.in_layers = some l := by
        rw [htopo, hl']
      obtain ⟨hmem, _, horder⟩ := topological_ordering_spec htopo2
      have hLd : l.get ⟨k, hk⟩ ∈ discovered c.output_layers c.in_layers :=
        (hmem _).mp (List.get_mem l k hk)
      exact horder k hk p hp (discovered_closed _ hLd p hp)
  · intro l hl
    unfold pipeline_topological_ordering at hl
    cases htopo : topological_ordering roots ops with
    | none => rw [htopo] at hl; exact absurd hl (by simp)
    | some l' =>
      rw [htopo] at hl
      have hl' : l' = l := by injection hl
      have htopo2 : topological_ordering roots ops = some l := by
        rw [htopo, hl']
      obtain ⟨hmem, hnd, horder⟩ := topological_ordering_spec htopo2
      refine ⟨?_, hnd, ?_⟩
      · intro v
        rw [hmem v]
        exact ⟨fun hv => discovered_sound v hv, fun hv => discovered_complete hv⟩
      · intro k hk p hp
        have hLd : l.get ⟨k, hk⟩ ∈ discovered roots ops :=
          (hmem _).mp (List.get_mem l k hk)
        exact horder k hk p hp (discovered_closed _ hLd p hp)
  · intro hacyc
    obtain ⟨l, hl⟩ := topological_ordering_some_of_acyclic roots ops
      (fun ⟨cc, hcyc, hsub⟩ =>
        hacyc ⟨cc, hcyc, fun x hx => discovered_sound x (hsub x hx)⟩)
    refine ⟨l, ?_⟩
    unfold pipeline_topological_ordering
    rw [hl]
  · intro hcyc hsub
    have hnone := topological_ordering_cycle_none hcyc
      (fun x hx => discovered_complete (hsub x hx))
    unfold layers_topological_ordering
    rw [hnone]
  · intro hcyc hsub
    have hnone := topological_ordering_cycle_none hcyc
      (fun x hx => discovered_complete (hsub x hx))
    unfold pipeline_topological_ordering
    rw [hnone]

/-- C3 counterexample: a circuit whose two layers form a cycle that is not
reachable from any output layer (there are no output layers: both layers have
consumers).  The claim says a layer cycle makes `layers_topological_ordering`
raise the layer-cycle error; instead the call returns an (empty) ordering,
because Kahn's algorithm only examines nodes discovered from the roots. -/
theorem c3_counterexample_undetected_layer_cycle :
    IsIncCycle (incOf [(0, [1]), (1, [0])]) [0, 1]
    ∧ layers_topological_ordering
        ⟨[0, 1], [(0, [1]), (1, [0])], [(0, [1]), (1, [0])]⟩ = .ok [] := by
  constructor
  · show List.Chain (fun a b => b ∈ incOf [(0, [1]), (1, [0])] a) 0 ([1] ++ [0])
    refine List.Chain.cons ?_ (List.Chain.cons ?_ List.Chain.nil)
    · decide
    · decide
  · rfl

/-- Witness for C3 on concrete graphs: the acyclic pipeline `0 → 1` (circuit 1
derived from circuit 0) is ordered as `[0, 1]` with the stated properties, and
the circuit/pipeline with layers `0 ↔ 1` (a cycle) reachable from root `2`
raises the layer-cycle and pipeline-cycle errors respectively. -/
theorem c3_topological_ordering_amended_witness :
    (∀ v, v ∈ ([0, 1] : List Nat) ↔ Reaches (incOf [(1, [0])]) [1] v)
    ∧ (∃ l, pipeline_topological_ordering [1] [(1, [0])] = .ok l)
    ∧ layers_topological_ordering
        ⟨[0, 1, 2], [(0, [1]), (1, [0]), (2, [0])], [(0, [1]), (1, [0])]⟩
      = .error "The given symbolic circuit has at least one layers cycle"
    ∧ pipeline_topological_ordering [2] [(0, [1]), (1, [0]), (2, [0])]
      = .error "The given symbolic circuits pipeline has at least one cycle" := by
  have hinc1 : ∀ v y : Nat, y ∈ incOf [(1, [0])] v → v = 1 ∧ y = 0 := by
    intro v y hy
    unfold incOf dictGetD dictGet at hy
    cases h1 : ((1 : Nat) == v) with
    | true =>
      simp only [List.find?, h1] at hy
      simp only [Option.map_some', Option.getD_some, List.mem_singleton] at hy
      exact ⟨(eq_of_beq h1).symm, hy⟩
    | false =>
      simp only [List.find?, h1] at hy
      simp at hy
  have T1 := c3_topological_ordering_amended ⟨[], [], []⟩ [1] [(1, [0])] [] []
  have T2 := c3_topological_ordering_amended
    ⟨[0, 1, 2], [(0, [1]), (1, [0]), (2, [0])], [(0, [1]), (1, [0])]⟩
    [2] [(0, [1]), (1, [0]), (2, [0])] [0, 1] [0, 1]
  have hcyc2 : IsIncCycle (incOf [(0, [1]), (1, [0]), (2, [0])]) [0, 1] := by
    show List.Chain (fun a b => b ∈ incOf [(0, [1]), (1, [0]), (2, [0])] a) 0 ([1] ++ [0])
    refine List.Chain.cons ?_ (List.Chain.cons ?_ List.Chain.nil)
    · decide
    · decide
  have hreach2 : ∀ x ∈ ([0, 1] : List Nat),
      Reaches (incOf [(0, [1]), (1, [0]), (2, [0])]) [2] x := by
    have h0 : Reaches (incOf [(0, [1]), (1, [0]), (2, [0])]) [2] 0 :=
      Reaches.step (u := 2) (Reaches.root (by simp)) (by decide)
    intro x hx
    rcases List.mem_cons.mp hx with rfl | hx
    · exact h0
    · rw [List.mem_singleton] at hx
      rw [hx]
      exact Reaches.step (u := 0) h0 (by decide)
  refine ⟨?_, ?_, ?_, ?_⟩
  · exact (T1.2.1 [0, 1] (by rfl)).1
  · refine T1.2.2.1 ?_
    rintro ⟨cc, hcyc, hsub⟩
    have hccne : cc ≠ [] := by
      intro hcc
      rw [hcc] at hcyc
      exact absurd hcyc (fun hh => hh)
    obtain ⟨x₀, hx₀⟩ := List.exists_mem_of_ne_nil cc hccne
    obtain ⟨y, hyc, hyx⟩ := cycle_mem_inc hcyc x₀ hx₀
    obtain ⟨_, rfl⟩ := hinc1 x₀ y hyx
    obtain ⟨z, _, hzy⟩ := cycle_mem_inc hcyc 0 hyc
    obtain ⟨h01, _⟩ := hinc1 0 z hzy
    exact absurd h01 (by decide)
  · exact T2.2.2.2.1 hcyc2 (by
      intro x hx
      have := hreach2 x hx
      exact this)
  · exact T2.2.2.2.2.1 hcyc2 hreach2

/-! ## Pipeline compiler (`src/cirkit/tensorized/compilers/torch_module.py`)

Symbolic layers and circuits are arena entities identified by `Nat` ids
(Python object identity); reparameterization objects are likewise identified
by `Nat` ids, with fresh objects allocated from a counter threaded through the
compiler, so "the very same parameter object" is "the same reparam id".
`PipelineContext`, `TensorizedCircuit` and the executable layer classes are
not among the provided sources and are modelled from the spec: the context
maps a symbolic circuit (by identity) to its materialized circuit — executable
layers, bookkeeping, and the symbolic-layer-to-index map — and
`get_materialized_layer` looks an executable layer up by
`(operand_circuit, operand_layer)`.  The concrete symbolic layer classes are
the kinds below; `SymbMixingLayer` is a subclass of `SymbSumLayer`
(`isinstance(sl, SymbSumLayer)` holds for both `dense` and `mixing`), and
`SymbHadamardLayer` / `SymbKroneckerLayer` are the product layers. -/

/-- The concrete symbolic layer classes the compiler dispatches on. -/
inductive SLKind where
  | categorical
  | constant
  | dense
  | mixing
  | hadamard
  | kronecker
deriving DecidableEq, Repr

/-- `SymbOperator` values. -/
inductive SOp where
  | integration
  | differentiation
  | multiplication
deriving DecidableEq, Repr

/-- A symbolic layer as consumed by the compiler: arena id, class, scope,
width, channels, ordered producer layer ids (`symb_layer.inputs`), and the
optional provenance `(operator, operand layer ids)`. -/
structure SLayer where
  id : Nat
  kind : SLKind
  scope : List Nat
  num_units : Nat
  num_channels : Nat
  inputs : List Nat
  operation : Option (SOp × List Nat)
deriving DecidableEq, Repr

/-- A symbolic circuit as consumed by the compiler: arena id, ordered layer
list (assumed topologically sorted by the code), the `out_layers` defaultdict
(missing key reads as the empty list), and the optional circuit-level
provenance `(operator, operand circuit ids)`. -/
structure SCircuitC where
  id : Nat
  layers : List SLayer
  out_layers : List (Nat × List Nat)
  operation : Option (SOp × List Nat)
deriving DecidableEq, Repr

/-- `symb_circuit.output_layers`: layers with an empty `out_layers` entry. -/
def SCircuitC.output_layers (c : SCircuitC) : List SLayer :=
  c.layers.filter fun sl => dictGetD sl.id c.out_layers [] == []

/-- An executable layer: class, unit counts, arity, and the id of its
reparameterization object (object identity). -/
structure ELayer where
  cls : SLKind
  num_input_units : Nat
  num_output_units : Nat
  arity : Nat
  reparam : Nat
deriving DecidableEq, Repr

/-- Modelled from the spec: a materialized (`TensorizedCircuit`) entry of the
pipeline context — executable layers, bookkeeping (an input entry carries the
tensor of scope indices, an inner entry carries `None`), and the
symbolic-layer-to-index map. -/
structure MatCircuit where
  layers : List ELayer
  bookkeeping : List (List Nat × Option (List Nat))
  symb_layers_map : List (Nat × Nat)
deriving DecidableEq, Repr

/-- Modelled from the spec: the pipeline context, keyed by symbolic-circuit
identity. -/
structure PipeCtx where
  mat : List (Nat × MatCircuit)
deriving DecidableEq, Repr

/-- Modelled from the spec: `ctx.get_materialized_layer(circuit, layer)`. -/
def PipeCtx.get_materialized_layer (ctx : PipeCtx) (cid lid : Nat) : Option ELayer := do
  let mc ← dictGet cid ctx.mat
  let idx ← dictGet lid mc.symb_layers_map
  mc.layers.get? idx

/-- The Python exception kinds the compiler can raise. -/
inductive CErr where
  | keyError
  | indexError
  | attributeError
  | assertionError
deriving DecidableEq, Repr

/-- `compile_input_layer`: resolve the executable class from the fixed
symbolic-to-executable input table (`KeyError` for input classes not in the
table); with no provenance, instantiate fresh (a new reparam object from
`layer_cls.default_reparam()`, modelled by the counter); with `INTEGRATION`
provenance, reuse the reparam object of the layer looked up in the context by
`(symb_circuit.operation.operands[0], symb_layer.operation.operands[0])`; any
other provenance hits `assert False`. -/
def compile_input_layer (c : SCircuitC) (sl : SLayer) (ctx : PipeCtx) (fresh : Nat) :
    Except CErr (ELayer × Nat) :=
  if !(sl.kind == .constant || sl.kind == .categorical) then .error .keyError
  else
    match sl.operation with
    | none =>
        .ok ({ cls := sl.kind, num_input_units := sl.num_channels,
               num_output_units := sl.num_units, arity := sl.scope.length,
               reparam := fresh }, fresh + 1)
    | some (op, lops) =>
        if op == .integration then
          match c.operation with
          | none => .error .attributeError
          | some (_, cops) =>
              match cops with
              | [] => .error .indexError
              | cop :: _ =>
                  match lops with
                  | [] => .error .indexError
                  | lop :: _ =>
                      match ctx.get_materialized_layer cop lop with
                      | none => .error .keyError
                      | some layer_op =>
                          .ok ({ cls := sl.kind, num_input_units := sl.num_channels,
                                 num_output_units := sl.num_units,
                                 arity := sl.scope.length,
                                 reparam := layer_op.reparam }, fresh)
        else .error .assertionError

/-- `compile_inner_layer`: resolve the executable class from the fixed inner
table (`KeyError` for classes not in the table); `num_input_units` comes from
`symb_layer.inputs[0].num_units` (`IndexError` on no inputs; the producer
layers are the circuit's own layer objects).  With no provenance, or for a
non-Sum layer, instantiate fresh; for a Sum (or Mixing) layer with
`INTEGRATION` provenance, reuse the reparam object of the layer looked up in
the context; any other provenance hits `assert False`. -/
def compile_inner_layer (c : SCircuitC) (sl : SLayer) (ctx : PipeCtx) (fresh : Nat) :
    Except CErr (ELayer × Nat) :=
  if !(sl.kind == .dense || sl.kind == .mixing
      || sl.kind == .hadamard || sl.kind == .kronecker) then .error .keyError
  else
    match sl.inputs with
    | [] => .error .indexError
    | i0 :: _ =>
        match c.layers.find? (fun t => t.id == i0) with
        | none => .error .keyError
        | some in0 =>
            match sl.operation with
            | none =>
                .ok ({ cls := sl.kind, num_input_units := in0.num_units,
                       num_output_units := sl.num_units, arity := sl.inputs.length,
                       reparam := fresh }, fresh + 1)
            | some (op, lops) =>
                if !(sl.kind == .dense || sl.kind == .mixing) then
                  .ok ({ cls := sl.kind, num_input_units := in0.num_units,
                         num_output_units := sl.num_units, arity := sl.inputs.length,
                         reparam := fresh }, fresh + 1)
                else if op == .integration then
                  match c.operation with
                  | none => .error .attributeError
                  | some (_, cops) =>
                      match cops with
                      | [] => .error .indexError
                      | cop :: _ =>
                          match lops with
                          | [] => .error .indexError
                          | lop :: _ =>
                              match ctx.get_materialized_layer cop lop with
                              | none => .error .keyError
                              | some layer_op =>
                                  .ok ({ cls := sl.kind,
                                         num_input_units := in0.num_units,
                                         num_output_units := sl.num_units,
                                         arity := sl.inputs.length,
                                         reparam := layer_op.reparam }, fresh)
                else .error .assertionError

/-- The accumulating state of the `for sl in symb_circuit.layers` loop of
`compile_circuit`. -/
structure CompSt where
  layers : List ELayer
  bookkeeping : List (List Nat × Option (List Nat))
  symb_layers_map : List (Nat × Nat)
  fresh : Nat
deriving DecidableEq, Repr

/-- One iteration body of the layer loop of `compile_circuit`: compile the
layer and build its bookkeeping entry — `([], tensor_of_scope_indices)` for an
input layer, `(producer indices from symb_layers_map, None)` for an inner
layer (`KeyError` when a producer has not been materialized yet). -/
def compile_layer_step (c : SCircuitC) (ctx : PipeCtx) (sl : SLayer) (st : CompSt) :
    Except CErr (ELayer × (List Nat × Option (List Nat)) × Nat) :=
  if sl.kind == .categorical || sl.kind == .constant then
    match compile_input_layer c sl ctx st.fresh with
    | .error e => .error e
    | .ok (layer, fresh2) => .ok (layer, ([], some sl.scope), fresh2)
  else
    match compile_inner_layer c sl ctx st.fresh with
    | .error e => .error e
    | .ok (layer, fresh2) =>
        match sl.inputs.mapM (fun isl => dictGet isl st.symb_layers_map) with
        | none => .error .keyError
        | some ixs => .ok (layer, (ixs, none), fresh2)

/-- The layer loop of `compile_circuit`: run the per-layer body, then assign
`symb_layers_map[sl] = len(layers)` and append the executable layer and the
bookkeeping entry. -/
def compile_layers (c : SCircuitC) (ctx : PipeCtx) :
    List SLayer → CompSt → Except CErr CompSt
  | [], st => .ok st
  | sl :: rest, st =>
      match compile_layer_step c ctx sl st with
      | .error e => .error e
      | .ok (layer, entry, fresh2) =>
          compile_layers c ctx rest
            { layers := st.layers ++ [layer],
              bookkeeping := st.bookkeeping ++ [entry],
              symb_layers_map := dictInsert sl.id st.layers.length st.symb_layers_map,
              fresh := fresh2 }

/-- `compile_circuit`: lower all layers, append the final bookkeeping entry
`(output_layer_indices, None)`, and register the materialized circuit into the
context under the symbolic circuit's identity. -/
def compile_circuit (c : SCircuitC) (ctx : PipeCtx) (fresh : Nat) :
    Except CErr (PipeCtx × Nat) :=
  match compile_layers c ctx c.layers ⟨[], [], [], fresh⟩ with
  | .error e => .error e
  | .ok st =>
      match c.output_layers.mapM (fun sl => dictGet sl.id st.symb_layers_map) with
      | none => .error .keyError
      | some output_indices =>
          .ok ({ mat := dictInsert c.id
                  ⟨st.layers, st.bookkeeping ++ [(output_indices, none)],
                    st.symb_layers_map⟩ ctx.mat }, st.fresh)

/-- Errors escaping `compile_pipeline`: a pipeline-ordering failure, a circuit
id not found in the arena, or an exception raised while compiling a circuit —
the latter records the circuit, the exception, and the context and counter at
the moment of failure (the Python caller still holds the context object when
the exception propagates). -/
inductive PipeErr where
  | orderingError (msg : String)
  | missingCircuit (cid : Nat)
  | circuitError (cid : Nat) (e : CErr) (ctx : PipeCtx) (fresh : Nat)
deriving DecidableEq, Repr

/-- The materialization loop of `compile_pipeline`: follow the topological
ordering, skip circuits already materialized in the context (membership by
identity), compile the rest. -/
def compile_pipeline_go (circuits : List SCircuitC) :
    List Nat → PipeCtx → Nat → Except PipeErr (PipeCtx × Nat)
  | [], ctx, fresh => .ok (ctx, fresh)
  | cid :: rest, ctx, fresh =>
      if (dictGet cid ctx.mat).isSome then compile_pipeline_go circuits rest ctx fresh
      else
        match circuits.find? (fun sc => sc.id == cid) with
        | none => .error (.missingCircuit cid)
        | some sc =>
            match compile_circuit sc ctx fresh with
            | .error e => .error (.circuitError cid e ctx fresh)
            | .ok (ctx2, fresh2) => compile_pipeline_go circuits rest ctx2 fresh2

/-- `compile_pipeline`: compute the pipeline topological ordering (the operand
edges come from each circuit's `operation.operands`; a circuit without an
operation has none), then materialize the circuits in that order, skipping
those already in the context. -/
def compile_pipeline (roots : List Nat) (circuits : List SCircuitC)
    (ctx : PipeCtx) (fresh : Nat) : Except PipeErr (PipeCtx × Nat) :=
  match pipeline_topological_ordering roots
      (circuits.filterMap fun sc => sc.operation.map fun o => (sc.id, o.2)) with
  | .error msg => .error (.orderingError msg)
  | .ok ordering => compile_pipeline_go circuits ordering ctx fresh

theorem mapM_option_forall₂ {α β : Type} (f : α → Option β) :
    ∀ (xs : List α) (ys : List β), xs.mapM f = some ys →
      List.Forall₂ (fun x y => f x = some y) xs ys := by
  intro xs
  induction xs with
  | nil =>
    intro ys h
    simp only [List.mapM_nil, pure, Option.some.injEq] at h
    rw [← h]
    exact List.Forall₂.nil
  | cons x xs ih =>
    intro ys h
    rw [List.mapM_cons] at h
    cases hx : f x with
    | none => rw [hx] at h; simp [bind] at h
    | some y =>
      rw [hx] at h
      cases hxs : xs.mapM f with
      | none => rw [hxs] at h; simp [bind] at h
      | some ys' =>
        rw [hxs] at h
        simp at h
        rw [← h]
        exact List.Forall₂.cons hx (ih ys' hxs)

theorem mapM_option_length {α β : Type} (f : α → Option β)
    (xs : List α) (ys : List β) (h : xs.mapM f = some ys) : ys.length = xs.length :=
  (mapM_option_forall₂ f xs ys h).length_eq.symm

/-- Reparam reuse in `compile_input_layer` under `INTEGRATION` provenance. -/
theorem compile_input_layer_integration {c : SCircuitC} {sl : SLayer} {ctx : PipeCtx}
    {fr fr2 : Nat} {layer : ELayer} {op : SOp} {cop lop : Nat}
    {cops lops : List Nat}
    (h : compile_input_layer c sl ctx fr = .ok (layer, fr2))
    (hlop : sl.operation = some (.integration, lop :: lops))
    (hcop : c.operation = some (op, cop :: cops)) :
    ∃ layer_op, ctx.get_materialized_layer cop lop = some layer_op
      ∧ layer.reparam = layer_op.reparam := by
  unfold compile_input_layer at h
  by_cases hkind : (!(sl.kind == .constant || sl.kind == .categorical)) = true
  · rw [if_pos hkind] at h
    exact absurd h (by simp)
  · rw [if_neg hkind] at h
    rw [hlop] at h
    simp only [beq_self_eq_true, if_true] at h
    rw [hcop] at h
    dsimp only at h
    cases hlook : ctx.get_materialized_layer cop lop with
    | none => rw [hlook] at h; exact absurd h (by simp)
    | some layer_op =>
      rw [hlook] at h
      simp only [Except.ok.injEq, Prod.mk.injEq] at h
      refine ⟨layer_op, rfl, ?_⟩
      rw [← h.1]

/-- Reparam reuse in `compile_inner_layer` for Sum/Mixing layers under
`INTEGRATION` provenance. -/
theorem compile_inner_layer_integration {c : SCircuitC} {sl : SLayer} {ctx : PipeCtx}
    {fr fr2 : Nat} {layer : ELayer} {op : SOp} {cop lop : Nat}
    {cops lops : List Nat}
    (h : compile_inner_layer c sl ctx fr = .ok (layer, fr2))
    (hsum : (sl.kind == .dense || sl.kind == .mixing) = true)
    (hlop : sl.operation = some (.integration, lop :: lops))
    (hcop : c.operation = some (op, cop :: cops)) :
    ∃ layer_op, ctx.get_materialized_layer cop lop = some layer_op
      ∧ layer.reparam = layer_op.reparam := by
  unfold compile_inner_layer at h
  have hkind : (!(sl.kind == .dense || sl.kind == .mixing
      || sl.kind == .hadamard || sl.kind == .kronecker)) = false := by
    rw [Bool.or_eq_true] at hsum
    rcases hsum with hs | hs <;> simp [hs]
  rw [hkind] at h
  simp only [Bool.false_eq_true, if_false] at h
  cases hins : sl.inputs with
  | nil => rw [hins] at h; exact absurd h (by simp)
  | cons i0 irest =>
    rw [hins] at h
    dsimp only at h
    cases hfind : c.layers.find? (fun t => t.id == i0) with
    | none => rw [hfind] at h; exact absurd h (by simp)
    | some in0 =>
      rw [hfind] at h
      rw [hlop] at h
      dsimp only at h
      rw [show (!(sl.kind == SLKind.dense || sl.kind == SLKind.mixing)) = false by
        rw [hsum]; rfl] at h
      simp only [Bool.false_eq_true, if_false, beq_self_eq_true, if_true] at h
      rw [hcop] at h
      dsimp only at h
      cases hlook : ctx.get_materialized_layer cop lop with
      | none => rw [hlook] at h; exact absurd h (by simp)
      | some layer_op =>
        rw [hlook] at h
        simp only [Except.ok.injEq, Prod.mk.injEq] at h
        refine ⟨layer_op, rfl, ?_⟩
        rw [← h.1]

theorem forall₂_mem_right {α β : Type} {R : α → β → Prop} :
    ∀ {xs : List α} {ys : List β}, List.Forall₂ R xs ys →
      ∀ y ∈ ys, ∃ x ∈ xs, R x y := by
  intro xs ys h
  induction h with
  | nil => intro y hy; simp at hy
  | cons hr _ ih =>
    intro y hy
    rcases List.mem_cons.mp hy with rfl | hy
    · exact ⟨_, List.mem_cons_self _ _, hr⟩
    · obtain ⟨x, hx, hxy⟩ := ih y hy
      exact ⟨x, List.mem_cons_of_mem _ hx, hxy⟩

theorem compile_layer_step_spec {c : SCircuitC} {ctx : PipeCtx} {sl : SLayer}
    {st : CompSt} {layer : ELayer} {entry : List Nat × Option (List Nat)} {fresh2 : Nat}
    (h : compile_layer_step c ctx sl st = .ok (layer, entry, fresh2)) :
    ((sl.kind == .categorical || sl.kind == .constant) = true →
      compile_input_layer c sl ctx st.fresh = .ok (layer, fresh2)
      ∧ entry = ([], some sl.scope))
    ∧ ((sl.kind == .categorical || sl.kind == .constant) = false →
      compile_inner_layer c sl ctx st.fresh = .ok (layer, fresh2)
      ∧ ∃ ixs, entry = (ixs, none)
        ∧ sl.inputs.mapM (fun isl => dictGet isl st.symb_layers_map) = some ixs) := by
  unfold compile_layer_step at h
  constructor
  · intro hkind
    rw [if_pos hkind] at h
    cases hin : compile_input_layer c sl ctx st.fresh with
    | error e => rw [hin] at h; exact absurd h (by simp)
    | ok t =>
      rw [hin] at h
      obtain ⟨layer', fresh2'⟩ := t
      simp only [Except.ok.injEq, Prod.mk.injEq] at h
      obtain ⟨h1, h2, h3⟩ := h
      rw [h1, h3]
      exact ⟨rfl, h2.symm⟩
  · intro hkind
    rw [if_neg (by rw [hkind]; exact Bool.false_ne_true)] at h
    cases hin : compile_inner_layer c sl ctx st.fresh with
    | error e => rw [hin] at h; exact absurd h (by simp)
    | ok t =>
      rw [hin] at h
      obtain ⟨layer', fresh2'⟩ := t
      dsimp only at h
      cases hmm : sl.inputs.mapM (fun isl => dictGet isl st.symb_layers_map) with
      | none => rw [hmm] at h; exact absurd h (by simp)
      | some ixs =>
        rw [hmm] at h
        simp only [Except.ok.injEq, Prod.mk.injEq] at h
        obtain ⟨h1, h2, h3⟩ := h
        rw [h1, h3]
        exact ⟨rfl, ixs, h2.symm, rfl⟩

theorem compile_layers_prefix (c : SCircuitC) (ctx : PipeCtx) :
    ∀ (ls : List SLayer) (st stf : CompSt),
      compile_layers c ctx ls st = .ok stf →
      ∃ sufL sufB, stf.layers = st.layers ++ sufL
        ∧ stf.bookkeeping = st.bookkeeping ++ sufB := by
  intro ls
  induction ls with
  | nil =>
    intro st stf h
    rw [compile_layers] at h
    obtain rfl : st = stf := by injection h
    exact ⟨[], [], by simp, by simp⟩
  | cons sl rest ih =>
    intro st stf h
    rw [compile_layers] at h
    cases hstep : compile_layer_step c ctx sl st with
    | error e => rw [hstep] at h; exact absurd h (by simp)
    | ok t =>
      rw [hstep] at h
      obtain ⟨layer, entry, fresh2⟩ := t
      dsimp only at h
      obtain ⟨sufL, sufB, hL, hB⟩ := ih _ _ h
      refine ⟨layer :: sufL, entry :: sufB, ?_, ?_⟩
      · rw [hL]; simp
      · rw [hB]; simp

/-- The invariant of the `symb_layers_map` during the layer loop: it maps a
layer id to a position strictly below the number of layers materialized so
far, holding the layer with that id. -/
def MapInv (allL : List SLayer) (bound : Nat) (m : List (Nat × Nat)) : Prop :=
  ∀ i pos, dictGet i m = some pos →
    pos < bound ∧ ∃ slp, allL[pos]? = some slp ∧ slp.id = i

theorem MapInv.insert {allL : List SLayer} {bound : Nat} {m : List (Nat × Nat)}
    (h : MapInv allL bound m) {sl : SLayer} (hget : allL[bound]? = some sl) :
    MapInv allL (bound + 1) (dictInsert sl.id bound m) := by
  intro i pos hpos
  by_cases hi : i = sl.id
  · subst hi
    rw [dictGet_insert_self] at hpos
    obtain rfl : bound = pos := by injection hpos
    exact ⟨Nat.lt_succ_self _, sl, hget, rfl⟩
  · rw [dictGet_insert_ne _ _ _ _ hi] at hpos
    obtain ⟨h1, slp, h2, h3⟩ := h i pos hpos
    exact ⟨Nat.lt_succ_of_lt h1, slp, h2, h3⟩

/-- Per-position characterisation of the layer loop: the executable layer and
bookkeeping entry produced for the `k`-th remaining symbolic layer. -/
theorem compile_layers_index (c : SCircuitC) (ctx : PipeCtx) :
    ∀ (ls : List SLayer) (st stf : CompSt) (done : List SLayer),
      c.layers = done ++ ls →
      done.length = st.layers.length →
      st.bookkeeping.length = st.layers.length →
      MapInv c.layers st.layers.length st.symb_layers_map →
      compile_layers c ctx ls st = .ok stf →
      stf.layers.length = st.layers.length + ls.length ∧
      stf.bookkeeping.length = st.layers.length + ls.length ∧
      MapInv c.layers stf.layers.length stf.symb_layers_map ∧
      (∀ k (hk : k < ls.length),
        ∃ layer entry,
          stf.layers[st.layers.length + k]? = some layer ∧
          stf.bookkeeping[st.layers.length + k]? = some entry ∧
          (((ls.get ⟨k, hk⟩).kind == SLKind.categorical
              || (ls.get ⟨k, hk⟩).kind == SLKind.constant) = true →
            (∃ fr fr2, compile_input_layer c (ls.get ⟨k, hk⟩) ctx fr = .ok (layer, fr2))
            ∧ entry = ([], some (ls.get ⟨k, hk⟩).scope)) ∧
          (((ls.get ⟨k, hk⟩).kind == SLKind.categorical
              || (ls.get ⟨k, hk⟩).kind == SLKind.constant) = false →
            (∃ fr fr2, compile_inner_layer c (ls.get ⟨k, hk⟩) ctx fr = .ok (layer, fr2))
            ∧ ∃ ixs, entry = (ixs, none)
              ∧ List.Forall₂ (fun i ix => ∃ slp, c.layers[ix]? = some slp ∧ slp.id = i)
                  (ls.get ⟨k, hk⟩).inputs ixs
              ∧ ∀ ix ∈ ixs, ix < st.layers.length + k)) := by
  intro ls
  induction ls with
  | nil =>
    intro st stf done hsplit hdone hbook hminv h
    rw [compile_layers] at h
    obtain rfl : st = stf := by injection h
    refine ⟨by simp, by simp [hbook], hminv, ?_⟩
    intro k hk
    exact absurd hk (by simp)
  | cons sl rest ih =>
    intro st stf done hsplit hdone hbook hminv h
    rw [compile_layers] at h
    cases hstep : compile_layer_step c ctx sl st with
    | error e => rw [hstep] at h; exact absurd h (by simp)
    | ok t =>
      rw [hstep] at h
      obtain ⟨layer, entry, fresh2⟩ := t
      dsimp only at h
      have hgetsl : c.layers[st.layers.length]? = some sl := by
        rw [hsplit, ← hdone, List.getElem?_append_right (Nat.le_refl _)]
        simp
      have hih := ih
        { layers := st.layers ++ [layer],
          bookkeeping := st.bookkeeping ++ [entry],
          symb_layers_map := dictInsert sl.id st.layers.length st.symb_layers_map,
          fresh := fresh2 } stf (done ++ [sl])
        (by rw [hsplit]; simp)
        (by simp [hdone])
        (by simp [hbook])
        (by
          have := MapInv.insert hminv hgetsl
          simpa using this)
        h
      obtain ⟨hlen1, hlen2, hminv2, hidx⟩ := hih
      have hstlen : (st.layers ++ [layer]).length = st.layers.length + 1 := by simp
      refine ⟨?_, ?_, ?_, ?_⟩
      · rw [hlen1, hstlen]
        simp only [List.length_cons]
        omega
      · rw [hlen2, hstlen]
        simp only [List.length_cons]
        omega
      · exact hminv2
      · intro k hk
        cases k with
        | zero =>
          obtain ⟨sufL, sufB, hL, hB⟩ := compile_layers_prefix c ctx rest _ _ h
          have hspec := compile_layer_step_spec hstep
          refine ⟨layer, entry, ?_, ?_, ?_, ?_⟩
          · rw [hL]
            simp only [List.append_assoc, Nat.add_zero]
            rw [List.getElem?_append_right (Nat.le_refl _)]
            simp
          · rw [hB]
            simp only [List.append_assoc, Nat.add_zero]
            rw [← hbook, List.getElem?_append_right (Nat.le_refl _)]
            simp
          · intro hkind
            obtain ⟨h1, h2⟩ := hspec.1 hkind
            exact ⟨⟨st.fresh, fresh2, h1⟩, h2⟩
          · intro hkind
            obtain ⟨h1, ixs, h2, h3⟩ := hspec.2 hkind
            refine ⟨⟨st.fresh, fresh2, h1⟩, ixs, h2, ?_, ?_⟩
            · refine (mapM_option_forall₂ _ _ _ h3).imp ?_
              intro i ix hix
              exact (hminv i ix hix).2
            · intro ix hix
              obtain ⟨i, _, hfi⟩ := forall₂_mem_right (mapM_option_forall₂ _ _ _ h3) ix hix
              have := (hminv i ix hfi).1
              omega
        | succ k' =>
          have hk' : k' < rest.length := by
            simp only [List.length_cons] at hk
            omega
          obtain ⟨layer', entry', hget1, hget2, hcase1, hcase2⟩ := hidx k' hk'
          have harith : (st.layers ++ [layer]).length + k'
              = st.layers.length + (k' + 1) := by
            simp
            omega
          rw [harith] at hget1 hget2
          have hgg : (sl :: rest).get ⟨k' + 1, hk⟩ = rest.get ⟨k', hk'⟩ := rfl
          refine ⟨layer', entry', hget1, hget2, ?_, ?_⟩
          · intro hkind
            rw [hgg] at hkind ⊢
            exact hcase1 hkind
          · intro hkind
            rw [hgg] at hkind ⊢
            obtain ⟨hc1, ixs, hc2, hc3, hc4⟩ := hcase2 hkind
            refine ⟨hc1, ixs, hc2, hc3, ?_⟩
            intro ix hix
            have := hc4 ix hix
            rw [hstlen] at this
            omega

theorem compile_circuit_spec {c : SCircuitC} {ctx : PipeCtx} {fresh : Nat}
    {ctx2 : PipeCtx} {fresh2 : Nat}
    (h : compile_circuit c ctx fresh = .ok (ctx2, fresh2)) :
    ∃ st outs,
      compile_layers c ctx c.layers ⟨[], [], [], fresh⟩ = .ok st ∧
      c.output_layers.mapM (fun sl => dictGet sl.id st.symb_layers_map) = some outs ∧
      ctx2 = PipeCtx.mk (dictInsert c.id
        (MatCircuit.mk st.layers (st.bookkeeping ++ [(outs, none)]) st.symb_layers_map)
        ctx.mat) := by
  unfold compile_circuit at h
  cases hcl : compile_layers c ctx c.layers ⟨[], [], [], fresh⟩ with
  | error e => rw [hcl] at h; exact absurd h (by simp)
  | ok st =>
    rw [hcl] at h
    dsimp only at h
    cases houts : c.output_layers.mapM (fun sl => dictGet sl.id st.symb_layers_map) with
    | none => rw [houts] at h; exact absurd h (by simp)
    | some outs =>
      rw [houts] at h
      simp only [Except.ok.injEq, Prod.mk.injEq] at h
      exact ⟨st, outs, rfl, houts, h.1.symm⟩

theorem mapInv_empty (allL : List SLayer) : MapInv allL 0 [] := by
  intro i pos hpos
  simp [dictGet] at hpos

/-- C2: compiling a circuit carrying `INTEGRATION` provenance reuses, for each
Input layer and each Sum (or Mixing) layer that itself carries `INTEGRATION`
provenance, the very reparameterization object (the same reparam id in the
arena model — the spec's "same object becomes same index") of the
corresponding already-materialized layer of the operand circuit, looked up in
the context by `(symb_circuit.operation.operands[0],
symb_layer.operation.operands[0])`. -/
theorem c2_integration_parameter_reuse
    (c : SCircuitC) (ctx : PipeCtx) (fresh : Nat) (ctx2 : PipeCtx) (fresh2 : Nat)
    (hok : compile_circuit c ctx fresh = .ok (ctx2, fresh2))
    (k : Nat) (hk : k < c.layers.length)
    (op : SOp) (cop lop : Nat) (cops lops : List Nat)
    (hcop : c.operation = some (op, cop :: cops))
    (hlop : (c.layers.get ⟨k, hk⟩).operation = some (.integration, lop :: lops))
    (hkind : ((c.layers.get ⟨k, hk⟩).kind == SLKind.categorical
        || (c.layers.get ⟨k, hk⟩).kind == SLKind.constant) = true
      ∨ ((c.layers.get ⟨k, hk⟩).kind == SLKind.dense
        || (c.layers.get ⟨k, hk⟩).kind == SLKind.mixing) = true) :
    ∃ mc elay layer_op,
      dictGet c.id ctx2.mat = some mc ∧
      mc.layers[k]? = some elay ∧
      ctx.get_materialized_layer cop lop = some layer_op ∧
      elay.reparam = layer_op.reparam := by
  obtain ⟨st, outs, hcl, houts, hctx2⟩ := compile_circuit_spec hok
  obtain ⟨_, _, _, hK⟩ := compile_layers_index c ctx c.layers ⟨[], [], [], fresh⟩ st []
    (by simp) (by simp) (by simp) (mapInv_empty c.layers) hcl
  obtain ⟨layer, entry, hget1, hget2, hcase1, hcase2⟩ := hK k hk
  simp only [List.length_nil, Nat.zero_add] at hget1 hget2
  have hmc : dictGet c.id ctx2.mat
      = some (MatCircuit.mk st.layers (st.bookkeeping ++ [(outs, none)]) st.symb_layers_map) := by
    rw [hctx2]
    exact dictGet_insert_self c.id _ ctx.mat
  rcases hkind with hkind | hkind
  · obtain ⟨⟨fr, fr2, hcompile⟩, _⟩ := hcase1 hkind
    obtain ⟨layer_op, hlook, hrep⟩ := compile_input_layer_integration hcompile hlop hcop
    exact ⟨_, layer, layer_op, hmc, hget1, hlook, hrep⟩
  · have hkf : ((c.layers.get ⟨k, hk⟩).kind == SLKind.categorical
        || (c.layers.get ⟨k, hk⟩).kind == SLKind.constant) = false := by
      have hkind2 := hkind
      rw [Bool.or_eq_true] at hkind2
      rcases hkind2 with hs | hs
      · rw [eq_of_beq hs]; rfl
      · rw [eq_of_beq hs]; rfl
    obtain ⟨⟨fr, fr2, hcompile⟩, _⟩ := hcase2 hkf
    obtain ⟨layer_op, hlook, hrep⟩ := compile_inner_layer_integration hcompile hkind hlop hcop
    exact ⟨_, layer, layer_op, hmc, hget1, hlook, hrep⟩

/-- C8: on success, `compile_circuit` registers a bookkeeping list with
exactly one entry per symbolic layer plus one final entry; an Input layer's
entry pairs the empty index list with the tensor of its scope indices; an
inner layer's entry pairs the indices of its producer layers with `None`,
referencing only indices strictly smaller than the entry's own position; and
the final entry's index list has one index per output layer of the symbolic
circuit. -/
theorem c8_bookkeeping_structure
    (c : SCircuitC) (ctx : PipeCtx) (fresh : Nat) (ctx2 : PipeCtx) (fresh2 : Nat)
    (hok : compile_circuit c ctx fresh = .ok (ctx2, fresh2)) :
    ∃ mc, dictGet c.id ctx2.mat = some mc
      ∧ mc.layers.length = c.layers.length
      ∧ mc.bookkeeping.length = c.layers.length + 1
      ∧ (∀ k (hk : k < c.layers.length),
          (((c.layers.get ⟨k, hk⟩).kind == SLKind.categorical
              || (c.layers.get ⟨k, hk⟩).kind == SLKind.constant) = true →
            mc.bookkeeping[k]? = some ([], some (c.layers.get ⟨k, hk⟩).scope))
          ∧ (((c.layers.get ⟨k, hk⟩).kind == SLKind.categorical
              || (c.layers.get ⟨k, hk⟩).kind == SLKind.constant) = false →
            ∃ ixs, mc.bookkeeping[k]? = some (ixs, none)
              ∧ List.Forall₂ (fun i ix => ∃ slp, c.layers[ix]? = some slp ∧ slp.id = i)
                  (c.layers.get ⟨k, hk⟩).inputs ixs
              ∧ ∀ ix ∈ ixs, ix < k))
      ∧ ∃ outs, mc.bookkeeping[c.layers.length]? = some (outs, none)
          ∧ outs.length = c.output_layers.length := by
  obtain ⟨st, outs, hcl, houts, hctx2⟩ := compile_circuit_spec hok
  obtain ⟨hlen1, hlen2, _, hK⟩ := compile_layers_index c ctx c.layers ⟨[], [], [], fresh⟩ st []
    (by simp) (by simp) (by simp) (mapInv_empty c.layers) hcl
  simp only [List.length_nil, Nat.zero_add] at hlen1 hlen2
  refine ⟨MatCircuit.mk st.layers (st.bookkeeping ++ [(outs, none)]) st.symb_layers_map,
    ?_, ?_, ?_, ?_, ?_⟩
  · rw [hctx2]
    exact dictGet_insert_self c.id _ ctx.mat
  · exact hlen1
  · simp [hlen2]
  · intro k hk
    obtain ⟨layer, entry, hget1, hget2, hcase1, hcase2⟩ := hK k hk
    simp only [List.length_nil, Nat.zero_add] at hget1 hget2
    have hbk : (st.bookkeeping ++ [(outs, none)])[k]? = some entry := by
      rw [List.getElem?_append_left (by rw [hlen2]; exact hk)]
      exact hget2
    constructor
    · intro hkind
      obtain ⟨_, hentry⟩ := hcase1 hkind
      rw [hbk, hentry]
    · intro hkind
      obtain ⟨_, ixs, hentry, hfa, hbound⟩ := hcase2 hkind
      refine ⟨ixs, by rw [hbk, hentry], hfa, ?_⟩
      intro ix hix
      have := hbound ix hix
      simpa using this
  · refine ⟨outs, ?_, mapM_option_length _ _ _ houts⟩
    have : c.layers.length = st.bookkeeping.length := hlen2.symm
    rw [this, List.getElem?_append_right (Nat.le_refl _)]
    simp

theorem compile_circuit_mat {c : SCircuitC} {ctx : PipeCtx} {fresh : Nat}
    {ctx2 : PipeCtx} {fresh2 : Nat}
    (h : compile_circuit c ctx fresh = .ok (ctx2, fresh2)) :
    ∃ mc, ctx2.mat = dictInsert c.id mc ctx.mat := by
  obtain ⟨st, outs, _, _, hctx2⟩ := compile_circuit_spec h
  exact ⟨_, by rw [hctx2]⟩

/-- The invariants of the materialization loop: a successful run only adds
entries for circuits that were not yet materialized (so existing entries are
untouched), and a failing run records no entry for the failing circuit while
also leaving all pre-existing entries untouched. -/
theorem compile_pipeline_go_spec (circuits : List SCircuitC) :
    ∀ (order : List Nat) (ctx : PipeCtx) (fresh : Nat),
      (∀ ctx2 fresh2, compile_pipeline_go circuits order ctx fresh = .ok (ctx2, fresh2) →
        ∀ c2 mc, dictGet c2 ctx.mat = some mc → dictGet c2 ctx2.mat = some mc)
      ∧ (∀ cid e ctxF freshF,
          compile_pipeline_go circuits order ctx fresh
            = .error (.circuitError cid e ctxF freshF) →
          dictGet cid ctxF.mat = none
          ∧ ∀ c2 mc, dictGet c2 ctx.mat = some mc → dictGet c2 ctxF.mat = some mc) := by
  intro order
  induction order with
  | nil =>
    intro ctx fresh
    constructor
    · intro ctx2 fresh2 h c2 mc hmc
      rw [compile_pipeline_go] at h
      simp only [Except.ok.injEq, Prod.mk.injEq] at h
      rw [← h.1]
      exact hmc
    · intro cid e ctxF freshF h
      rw [compile_pipeline_go] at h
      exact absurd h (by simp)
  | cons cid0 restO ih =>
    intro ctx fresh
    constructor
    · intro ctx2 fresh2 h c2 mc hmc
      rw [compile_pipeline_go] at h
      by_cases hskip : (dictGet cid0 ctx.mat).isSome
      · rw [if_pos hskip] at h
        exact (ih ctx fresh).1 ctx2 fresh2 h c2 mc hmc
      · rw [if_neg hskip] at h
        cases hfind : circuits.find? (fun sc => sc.id == cid0) with
        | none => rw [hfind] at h; exact absurd h (by simp)
        | some sc =>
          rw [hfind] at h
          dsimp only at h
          cases hcc : compile_circuit sc ctx fresh with
          | error e0 => rw [hcc] at h; exact absurd h (by simp)
          | ok t =>
            rw [hcc] at h
            obtain ⟨ctxm, freshm⟩ := t
            dsimp only at h
            obtain ⟨mc', hmat⟩ := compile_circuit_mat hcc
            have hc2ne : c2 ≠ sc.id := by
              intro hcc2
              have hid : sc.id = cid0 := eq_of_beq (by simpa using List.find?_some hfind)
              apply hskip
              rw [← hid, ← hcc2, hmc]
              simp
            have hpres : dictGet c2 ctxm.mat = some mc := by
              rw [hmat, dictGet_insert_ne _ _ _ _ hc2ne]
              exact hmc
            exact (ih ctxm freshm).1 ctx2 fresh2 h c2 mc hpres
    · intro cid e ctxF freshF h
      rw [compile_pipeline_go] at h
      by_cases hskip : (dictGet cid0 ctx.mat).isSome
      · rw [if_pos hskip] at h
        exact (ih ctx fresh).2 cid e ctxF freshF h
      · rw [if_neg hskip] at h
        cases hfind : circuits.find? (fun sc => sc.id == cid0) with
        | none => rw [hfind] at h; exact absurd h (by simp)
        | some sc =>
          rw [hfind] at h
          dsimp only at h
          cases hcc : compile_circuit sc ctx fresh with
          | error e0 =>
            rw [hcc] at h
            simp only [Except.error.injEq, PipeErr.circuitError.injEq] at h
            obtain ⟨h1, _, h3, _⟩ := h
            constructor
            · rw [← h3, ← h1]
              cases hg : dictGet cid0 ctx.mat with
              | none => rfl
              | some m => rw [hg] at hskip; exact absurd (by simp) hskip
            · intro c2 mc hmc
              rw [← h3]
              exact hmc
          | ok t =>
            rw [hcc] at h
            obtain ⟨ctxm, freshm⟩ := t
            dsimp only at h
            obtain ⟨mc', hmat⟩ := compile_circuit_mat hcc
            have h2 := (ih ctxm freshm).2 cid e ctxF freshF h
            refine ⟨h2.1, ?_⟩
            intro c2 mc hmc
            apply h2.2
            have hc2ne : c2 ≠ sc.id := by
              intro hcc2
              have hid : sc.id = cid0 := eq_of_beq (by simpa using List.find?_some hfind)
              apply hskip
              rw [← hid, ← hcc2, hmc]
              simp
            rw [hmat, dictGet_insert_ne _ _ _ _ hc2ne]
            exact hmc

/-- C9: `compile_pipeline` walks the pipeline topological ordering, skipping
(by identity) every circuit already materialized in the context — whose
existing materialization is left untouched — and whenever a circuit's layers
fail to compile, the error propagates with the pipeline context having no
registration for the failing circuit (registration happens only after all of
its layers have compiled), while all pre-existing registrations survive
unchanged. -/
theorem c9_pipeline_skip_and_atomicity
    (roots : List Nat) (circuits : List SCircuitC) (ctx : PipeCtx) (fresh : Nat) :
    (∀ ctx2 fresh2, compile_pipeline roots circuits ctx fresh = .ok (ctx2, fresh2) →
      ∀ c2 mc, dictGet c2 ctx.mat = some mc → dictGet c2 ctx2.mat = some mc)
    ∧ (∀ cid e ctxF freshF,
        compile_pipeline roots circuits ctx fresh
          = .error (.circuitError cid e ctxF freshF) →
        dictGet cid ctxF.mat = none
        ∧ ∀ c2 mc, dictGet c2 ctx.mat = some mc → dictGet c2 ctxF.mat = some mc) := by
  constructor
  · intro ctx2 fresh2 h c2 mc hmc
    unfold compile_pipeline at h
    cases hord : pipeline_topological_ordering roots
        (circuits.filterMap fun sc => sc.operation.map fun o => (sc.id, o.2)) with
    | error msg => rw [hord] at h; exact absurd h (by simp)
    | ok ordering =>
      rw [hord] at h
      exact (compile_pipeline_go_spec circuits ordering ctx fresh).1 ctx2 fresh2 h c2 mc hmc
  · intro cid e ctxF freshF h
    unfold compile_pipeline at h
    cases hord : pipeline_topological_ordering roots
        (circuits.filterMap fun sc => sc.operation.map fun o => (sc.id, o.2)) with
    | error msg => rw [hord] at h; exact absurd h (by simp)
    | ok ordering =>
      rw [hord] at h
      exact (compile_pipeline_go_spec circuits ordering ctx fresh).2 cid e ctxF freshF h

/-! Concrete fixtures for the compiler witnesses: an operand circuit (id 0)
with a categorical input layer (id 10) and a dense sum layer (id 11), its
integral circuit (id 1) whose layers (ids 20, 21) carry `INTEGRATION`
provenance pointing at layers 10 and 11, a context holding a hand-written
materialization of circuit 0 (reparam ids 100 and 101), and a context holding
an unrelated materialized circuit 5. -/

def wOperandCircuit : SCircuitC :=
  ⟨0, [⟨10, .categorical, [0], 2, 1, [], none⟩, ⟨11, .dense, [0], 1, 1, [10], none⟩],
    [(10, [11])], none⟩

def wIntegralCircuit : SCircuitC :=
  ⟨1, [⟨20, .constant, [0], 2, 1, [], some (.integration, [10])⟩,
       ⟨21, .dense, [0], 1, 1, [20], some (.integration, [11])⟩],
    [(20, [21])], some (.integration, [0])⟩

def wOperandMat : MatCircuit :=
  ⟨[⟨.categorical, 1, 2, 1, 100⟩, ⟨.dense, 2, 1, 1, 101⟩],
    [([], some [0]), ([0], none), ([1], none)], [(10, 0), (11, 1)]⟩

def wCtxOperand : PipeCtx := ⟨[(0, wOperandMat)]⟩

def wCtxOther : PipeCtx := ⟨[(5, MatCircuit.mk [] [] [])]⟩

def wBadCircuit : SCircuitC :=
  ⟨3, [⟨30, .categorical, [0], 2, 1, [], some (.differentiation, [99])⟩], [], none⟩

/-- Witness for C2: compiling the integral circuit against the context holding
the operand's materialization reuses reparam id 101 for the integration sum
layer at position 1. -/
theorem c2_integration_parameter_reuse_witness :
    ∃ ctx2 fresh2 mc elay layer_op,
      compile_circuit wIntegralCircuit wCtxOperand 200 = .ok (ctx2, fresh2)
      ∧ dictGet 1 ctx2.mat = some mc
      ∧ mc.layers[1]? = some elay
      ∧ PipeCtx.get_materialized_layer wCtxOperand 0 11 = some layer_op
      ∧ elay.reparam = layer_op.reparam := by
  have hIs : (compile_circuit wIntegralCircuit wCtxOperand 200).isOk = true := by decide
  cases hok : compile_circuit wIntegralCircuit wCtxOperand 200 with
  | error e =>
    rw [hok] at hIs
    exact Bool.noConfusion hIs
  | ok t =>
    obtain ⟨ctx2, fresh2⟩ := t
    obtain ⟨mc, elay, layer_op, h1, h2, h3, h4⟩ :=
      c2_integration_parameter_reuse wIntegralCircuit wCtxOperand 200 ctx2 fresh2 hok
        1 (by decide) SOp.integration 0 11 [] [] rfl rfl (Or.inr (by decide))
    exact ⟨ctx2, fresh2, mc, elay, layer_op, rfl, h1, h2, h3, h4⟩

/-- Witness for C8: compiling the operand circuit from an empty context
produces a three-entry bookkeeping: the input entry with its scope, the inner
entry referencing only index 0, and a final entry with one output index. -/
theorem c8_bookkeeping_structure_witness :
    ∃ ctx2 fresh2 mc,
      compile_circuit wOperandCircuit ⟨[]⟩ 100 = .ok (ctx2, fresh2)
      ∧ dictGet 0 ctx2.mat = some mc
      ∧ mc.bookkeeping.length = 3
      ∧ mc.bookkeeping[0]? = some ([], some [0])
      ∧ (∃ ixs, mc.bookkeeping[1]? = some (ixs, none) ∧ ∀ ix ∈ ixs, ix < 1)
      ∧ ∃ outs, mc.bookkeeping[2]? = some (outs, none) ∧ outs.length = 1 := by
  have hIs : (compile_circuit wOperandCircuit ⟨[]⟩ 100).isOk = true := by decide
  cases hok : compile_circuit wOperandCircuit ⟨[]⟩ 100 with
  | error e =>
    rw [hok] at hIs
    exact Bool.noConfusion hIs
  | ok t =>
    obtain ⟨ctx2, fresh2⟩ := t
    obtain ⟨mc, h1, hlay, hbook, hK, outs, hfin, hfinlen⟩ :=
      c8_bookkeeping_structure wOperandCircuit ⟨[]⟩ 100 ctx2 fresh2 hok
    obtain ⟨ixs, hb1, _, hbound⟩ := (hK 1 (by decide)).2 (by decide)
    exact ⟨ctx2, fresh2, mc, rfl, h1, hbook, (hK 0 (by decide)).1 (by decide),
      ⟨ixs, hb1, hbound⟩, outs, hfin, hfinlen⟩

/-- Witness for C9: a successful pipeline run (compiling the operand circuit
and then its integral) leaves the unrelated materialized circuit 5 untouched,
and a failing pipeline run (a circuit whose input layer carries unsupported
`DIFFERENTIATION` provenance) leaves the context without a registration for
the failing circuit while preserving circuit 5. -/
theorem c9_pipeline_skip_and_atomicity_witness :
    (∃ ctx2 fresh2,
      compile_pipeline [1] [wOperandCircuit, wIntegralCircuit] wCtxOther 300
        = .ok (ctx2, fresh2)
      ∧ dictGet 5 ctx2.mat = some (MatCircuit.mk [] [] []))
    ∧ (dictGet 3 wCtxOther.mat = none
      ∧ dictGet 5 wCtxOther.mat = some (MatCircuit.mk [] [] [])) := by
  constructor
  · have hIs : (compile_pipeline [1] [wOperandCircuit, wIntegralCircuit] wCtxOther 300).isOk
        = true := by decide
    cases hok : compile_pipeline [1] [wOperandCircuit, wIntegralCircuit] wCtxOther 300 with
    | error e =>
      rw [hok] at hIs
      exact Bool.noConfusion hIs
    | ok t =>
      obtain ⟨ctx2, fresh2⟩ := t
      refine ⟨ctx2, fresh2, rfl, ?_⟩
      exact (c9_pipeline_skip_and_atomicity [1] [wOperandCircuit, wIntegralCircuit]
        wCtxOther 300).1 ctx2 fresh2 hok 5 (MatCircuit.mk [] [] []) (by decide)
  · have h := (c9_pipeline_skip_and_atomicity [3] [wBadCircuit] wCtxOther 300).2
      3 CErr.assertionError wCtxOther 300 (by rfl)
    exact ⟨h.1, h.2 5 (MatCircuit.mk [] [] []) (by decide)⟩

end Cirkit
